import Mathlib

/-!
Verification development for the zephyr-microui repository.

This file gives a shallow embedding, in Lean 4, of the parts of the
C sources relevant to the frozen claims: the UTF-8 decoder, glyph lookup,
text measurement and text drawing of the renderer (zmu.c), the ARGB-8888
alpha-blending pixel store, the animation engine (animation.c), the
per-tick input drain (input handling), and the clipped rasterizer
primitives replayed by mu_render.

Modelling conventions:
* C machine integers are modelled as Nat (unsigned) or Int (signed),
  with explicit truncation (mod 2^w) exactly where the C code truncates.
* mu_Real (float) is idealized as the rational numbers; float literals
  of the source appear as the corresponding exact rationals.
* C functions returning through pointers are modelled as functions
  returning tuples; mutation of the context is explicit state passing.
* Bounded C loops are modelled by structural recursion on an explicit
  fuel argument whose initial value provably dominates the number of
  iterations of the C loop; each such definition carries a comment
  justifying the bound.
* The pool primitives mu_pool_get / mu_pool_init / mu_pool_update and
  the command iterator mu_next_command are declared in microui.h but
  their defining translation unit is not part of the sources at hand;
  they are modelled from the specification text, and marked as such.
-/

/-! ## Basic geometry (microui.h / zmu.c) -/

/-- Rectangle with int fields, as `mu_Rect` of microui.h. -/
structure mu_Rect where
  x : Int
  y : Int
  w : Int
  h : Int
deriving DecidableEq, Repr

/-- Constructor mirroring `mu_rect`. -/
def mu_rect (x y w h : Int) : mu_Rect := ⟨x, y, w, h⟩

/-- Intersection of two rectangles, from `intersect_rects` in zmu.c:
clamps the resulting extent to be nonnegative. -/
def intersect_rects (r1 r2 : mu_Rect) : mu_Rect :=
  let x1 := max r1.x r2.x
  let y1 := max r1.y r2.y
  let x2 := min (r1.x + r1.w) (r2.x + r2.w)
  let y2 := min (r1.y + r1.h) (r2.y + r2.h)
  let x2 := if x2 < x1 then x1 else x2
  let y2 := if y2 < y1 then y1 else y2
  mu_rect x1 y1 (x2 - x1) (y2 - y1)

/-- Membership of a point in a rectangle (the pixel grid spanned by it). -/
def inRect (r : mu_Rect) (px py : Int) : Prop :=
  r.x ≤ px ∧ px < r.x + r.w ∧ r.y ≤ py ∧ py < r.y + r.h

instance (r : mu_Rect) (px py : Int) : Decidable (inRect r px py) := by
  unfold inRect; infer_instance

theorem inRect_intersect {r1 r2 : mu_Rect} {px py : Int} :
    inRect (intersect_rects r1 r2) px py ↔ inRect r1 px py ∧ inRect r2 px py := by
  simp only [inRect, intersect_rects, mu_rect]
  constructor
  · intro h
    simp only [max_le_iff, le_max_iff] at h
    rcases h with ⟨⟨h1, h2⟩, h3, h4, h5⟩
    split_ifs at h3 h5 with hx hy hy <;>
      simp only [lt_min_iff, min_lt_iff, not_lt] at * <;> omega
  · intro ⟨⟨a1, a2, a3, a4⟩, b1, b2, b3, b4⟩
    simp only [max_le_iff, le_max_iff]
    refine ⟨⟨a1, b1⟩, ?_, ⟨a3, b3⟩, ?_⟩ <;>
      split_ifs with h <;> simp only [lt_min_iff, min_lt_iff, not_lt] at * <;> omega

/-! ## UTF-8 decoding (`next_utf8_codepoint`, zmu.c)

The C function reads from a NUL-terminated byte string.  We model the
string memory as a function from byte offsets to byte values; offset 0
is the current read position. -/

/-- UTF-8 decoder from `next_utf8_codepoint` in zmu.c
(CONFIG_MICROUI_TEXT_UTF8 variant): returns the decoded codepoint and
the number of bytes consumed. -/
def next_utf8_codepoint (bytes : Nat → Nat) : Nat × Nat :=
  if bytes 0 = 0 then
    (0, 0)
  else if bytes 0 < 0x80 then
    -- ASCII character (0xxxxxxx)
    (bytes 0, 1)
  else if bytes 0 &&& 0xE0 = 0xC0 then
    -- 2-byte sequence (110xxxxx 10xxxxxx)
    if bytes 1 = 0 ∨ bytes 1 &&& 0xC0 ≠ 0x80 then (0xFFFD, 1)
    else (((bytes 0 &&& 0x1F) <<< 6) ||| (bytes 1 &&& 0x3F), 2)
  else if bytes 0 &&& 0xF0 = 0xE0 then
    -- 3-byte sequence (1110xxxx 10xxxxxx 10xxxxxx)
    if bytes 1 = 0 ∨ bytes 2 = 0 ∨ bytes 1 &&& 0xC0 ≠ 0x80 ∨ bytes 2 &&& 0xC0 ≠ 0x80 then
      (0xFFFD, 1)
    else (((bytes 0 &&& 0x0F) <<< 12) ||| ((bytes 1 &&& 0x3F) <<< 6) ||| (bytes 2 &&& 0x3F), 3)
  else if bytes 0 &&& 0xF8 = 0xF0 then
    -- 4-byte sequence (11110xxx 10xxxxxx 10xxxxxx 10xxxxxx)
    if bytes 1 = 0 ∨ bytes 2 = 0 ∨ bytes 3 = 0 ∨ bytes 1 &&& 0xC0 ≠ 0x80 ∨
        bytes 2 &&& 0xC0 ≠ 0x80 ∨ bytes 3 &&& 0xC0 ≠ 0x80 then
      (0xFFFD, 1)
    else
      (((bytes 0 &&& 0x07) <<< 18) ||| ((bytes 1 &&& 0x3F) <<< 12) |||
        ((bytes 2 &&& 0x3F) <<< 6) ||| (bytes 3 &&& 0x3F), 4)
  else
    -- Invalid UTF-8 start byte
    (0xFFFD, 1)

/-- Forward progress of the decoder: a non-NUL first byte always consumes
at least one input byte. -/
theorem next_utf8_codepoint_progress (bytes : Nat → Nat) (h : bytes 0 ≠ 0) :
    1 ≤ (next_utf8_codepoint bytes).2 := by
  unfold next_utf8_codepoint
  split_ifs <;> simp_all

/-- The decoder consumes at most 4 bytes. -/
theorem next_utf8_codepoint_le_four (bytes : Nat → Nat) :
    (next_utf8_codepoint bytes).2 ≤ 4 := by
  unfold next_utf8_codepoint
  split_ifs <;> simp

/-- Every byte inside the consumed span is non-NUL: the decoder never
consumes past a string terminator. -/
theorem next_utf8_codepoint_span (bytes : Nat → Nat) :
    ∀ j < (next_utf8_codepoint bytes).2, bytes j ≠ 0 := by
  unfold next_utf8_codepoint
  split_ifs with h1 h2 h3 h4 h5 h6 h7 h8 <;> intro j hj <;> simp only at hj <;>
    first
      | omega
      | (interval_cases j <;> simp_all)

/-- C3: for every byte sequence whose first byte is non-zero the UTF-8
decoder consumes at least one byte (forward progress), and every invalid
leading byte (neither ASCII nor a valid 2-, 3- or 4-byte lead) yields the
replacement codepoint 0xFFFD and consumes exactly one byte. -/
theorem C3_utf8_progress_and_replacement (bytes : Nat → Nat) :
    (bytes 0 ≠ 0 → 1 ≤ (next_utf8_codepoint bytes).2) ∧
    (0x80 ≤ bytes 0 → bytes 0 &&& 0xE0 ≠ 0xC0 → bytes 0 &&& 0xF0 ≠ 0xE0 →
      bytes 0 &&& 0xF8 ≠ 0xF0 → next_utf8_codepoint bytes = (0xFFFD, 1)) := by
  refine ⟨next_utf8_codepoint_progress bytes, ?_⟩
  intro h0 h1 h2 h3
  unfold next_utf8_codepoint
  rw [if_neg (by omega), if_neg (by omega), if_neg h1, if_neg h2, if_neg h3]

/-- Witness for C3 at the concrete input consisting of the lone
continuation byte 0x90, an invalid leading byte. -/
theorem C3_witness :
    next_utf8_codepoint (fun _ => 0x90) = (0xFFFD, 1) ∧
    1 ≤ (next_utf8_codepoint (fun _ => 0x90)).2 :=
  ⟨(C3_utf8_progress_and_replacement (fun _ => 0x90)).2 (by norm_num) (by decide)
      (by decide) (by decide),
    (C3_utf8_progress_and_replacement (fun _ => 0x90)).1 (by norm_num)⟩

/-! ## Fonts and glyph lookup (font.h / zmu.c) -/

/-- Glyph entry, from `struct mu_FontGlyph` (font.h).  The bitmap byte
array is modelled as a function from byte offsets to byte values. -/
structure mu_FontGlyph where
  codepoint : Nat
  width : Nat
  bitmap : Nat → Nat

/-- Font descriptor, from `struct mu_FontDescriptor` (font.h).  Fields
not read by the functions under study are omitted. -/
structure mu_FontDescriptor where
  height : Nat
  bitmap_width : Nat
  default_width : Nat
  char_spacing : Nat
  glyphs : List mu_FontGlyph

/-- Placeholder glyph for out-of-range reads of the glyph array. -/
def dummyGlyph : mu_FontGlyph := ⟨0, 0, fun _ => 0⟩

/-- Loop of the branchless binary search of `find_glyph` (zmu.c).  The
pointer `base` into the glyph array is modelled as an index.  The C loop
runs while `len > 1` and shrinks `len` by `len / 2 ≥ 1` each iteration,
so an initial fuel equal to the initial `len` dominates the iteration
count. -/
def find_glyph_go (glyphs : List mu_FontGlyph) (codepoint : Nat) :
    Nat → Nat → Nat → Nat
  | 0, base, _ => base
  | fuel + 1, base, len =>
    if 1 < len then
      let half := len / 2
      if (glyphs.getD (base + half) dummyGlyph).codepoint ≤ codepoint then
        find_glyph_go glyphs codepoint fuel (base + half) (len - half)
      else
        find_glyph_go glyphs codepoint fuel base (len - half)
    else base

/-- Binary search for a glyph by codepoint, from `find_glyph` (zmu.c). -/
def find_glyph (font : mu_FontDescriptor) (codepoint : Nat) : Option mu_FontGlyph :=
  if font.glyphs.length = 0 then none
  else
    let b := find_glyph_go font.glyphs codepoint font.glyphs.length 0 font.glyphs.length
    let g := font.glyphs.getD b dummyGlyph
    if g.codepoint = codepoint then some g else none

/-! ## NUL-terminated strings -/

/-- Byte read from a string buffer; the C string terminator and anything
past the end of the modelled buffer read as 0. -/
def byteAt (text : List Nat) (i : Nat) : Nat := text.getD i 0

/-- Length of the NUL-terminated string starting at the head of the
buffer, as `strlen`. -/
def strlen : List Nat → Nat
  | [] => 0
  | b :: rest => if b = 0 then 0 else strlen rest + 1

theorem strlen_le_length (text : List Nat) : strlen text ≤ text.length := by
  induction text with
  | nil => simp [strlen]
  | cons b rest ih => simp only [strlen, List.length_cons]; split <;> omega

theorem byteAt_strlen (text : List Nat) : byteAt text (strlen text) = 0 := by
  induction text with
  | nil => simp [byteAt, strlen]
  | cons b rest ih =>
    simp only [strlen]
    split_ifs with h
    · simpa [byteAt] using h
    · simpa [byteAt] using ih

theorem byteAt_lt_strlen (text : List Nat) (i : Nat) (h : i < strlen text) :
    byteAt text i ≠ 0 := by
  induction text generalizing i with
  | nil => simp [strlen] at h
  | cons b rest ih =>
    simp only [strlen] at h
    split_ifs at h with hb
    · omega
    · match i with
      | 0 => simpa [byteAt] using hb
      | i + 1 => simpa [byteAt] using ih i (by omega)

/-! ## Glyph rasterization (`draw_glyph`, zmu.c)

Since the claims under study concern which framebuffer coordinates are
written, pixel writes are modelled as lists of written coordinates; the
pixel value itself is irrelevant to the claims and omitted. -/

/-- Fuelled base-2 logarithm (index of the highest set bit); used to
model `__builtin_clz`: for a W-bit word v, clz(v) = W - 1 - log2 v.
Fuel w suffices for v < 2 ^ w since the argument halves each step. -/
def log2f : Nat → Nat → Nat
  | 0, _ => 0
  | fuel + 1, n => if 2 ≤ n then log2f fuel (n / 2) + 1 else 0

theorem log2f_eq (fuel n : Nat) (h : n < 2 ^ fuel) : log2f fuel n = Nat.log2 n := by
  induction fuel generalizing n with
  | zero => interval_cases n; simp [log2f, Nat.log2]
  | succ fuel ih =>
    rw [log2f, Nat.log2]
    split_ifs with h2
    · rw [ih (n / 2) (by omega)]
    · rfl

/-- Inner bit loop of one glyph row from `draw_glyph` (zmu.c),
parameterized by the word width `wbits` of the row load (the C code has
four copies for widths 8, 16, 32, 64): emits the column of the leading
set bit (`col = clz(row_data)` relative to the word width) and clears
that bit (`row_data &= ~(MSB >> col)`, modelled as XOR against the
all-ones word, which equals the truncated C complement).  Each
iteration clears one set bit, so fuel `wbits` dominates the iteration
count for any row value below `2 ^ wbits`. -/
def glyph_row_cols (wbits : Nat) : Nat → Nat → List Nat
  | 0, _ => []
  | fuel + 1, v =>
    if v = 0 then []
    else
      let col := wbits - 1 - log2f wbits v
      col :: glyph_row_cols wbits fuel (v &&& ((2 ^ wbits - 1) ^^^ (2 ^ (wbits - 1) >>> col)))

/-- Big-endian load of `n` bytes starting at byte offset `base`, as the
`sys_get_be16` / `sys_get_be32` / `sys_get_be64` helpers; each byte is
truncated to its uint8 value. -/
def be_bytes (bitmap : Nat → Nat) (base n : Nat) : Nat :=
  (List.range n).foldl (fun acc i => (acc <<< 8) ||| (bitmap (base + i) % 256)) 0

/-- Word width and raw row value loaded by the four branches of
`draw_glyph` (zmu.c), selected by `font->bitmap_width`. -/
def glyph_row_data (font : mu_FontDescriptor) (glyph : mu_FontGlyph) (row : Nat) :
    Nat × Nat :=
  if font.bitmap_width ≤ 8 then (8, glyph.bitmap row % 256)
  else if font.bitmap_width ≤ 16 then (16, be_bytes glyph.bitmap (row * 2) 2)
  else if font.bitmap_width ≤ 32 then (32, be_bytes glyph.bitmap (row * 4) 4)
  else (64, be_bytes glyph.bitmap (row * 8) 8)

/-- Coordinates written by `draw_glyph` (zmu.c): the glyph rectangle is
intersected with the display and the current clip rectangle; each
visible row is loaded, masked down to the visible column range, and its
set bits are emitted through `set_pixel_unchecked`. -/
def draw_glyph (W H : Int) (clip : mu_Rect) (glyph : mu_FontGlyph) (x y : Int)
    (font : mu_FontDescriptor) : List (Int × Int) :=
  let glyph_rect := mu_rect x y (glyph.width : Int) (font.height : Int)
  let display_rect := mu_rect 0 0 W H
  let visible := intersect_rects glyph_rect display_rect
  let visible := intersect_rects visible clip
  if visible.w = 0 ∨ visible.h = 0 then []
  else
    let start_col := (visible.x - x).toNat
    let end_col := (visible.x + visible.w - x).toNat
    let start_row := (visible.y - y).toNat
    let end_row := (visible.y + visible.h - y).toNat
    (List.range (end_row - start_row)).flatMap fun i =>
      let row := start_row + i
      let screen_y := y + (row : Int)
      let wbits := (glyph_row_data font glyph row).1
      let raw := (glyph_row_data font glyph row).2
      let row_data := raw &&& ((2 ^ wbits - 1) >>> start_col)
      let row_data := row_data &&& ((2 ^ wbits - 1) <<< (wbits - end_col))
      (glyph_row_cols wbits wbits row_data).map fun col => (x + (col : Int), screen_y)

/-! ## Text drawing and text measurement (zmu.c) -/

/-- Loop of `renderer_draw_text` (zmu.c): decodes the next codepoint,
draws its glyph (or skips a missing glyph) and advances the cursor by
the glyph width (or the default width) plus the inter-glyph spacing.
Returns the emitted writes and the final cursor x.  The loop consumes at
least one byte per iteration and stops at the NUL terminator, so fuel
`text.length + 1` dominates the iteration count. -/
def renderer_draw_text_go (W H : Int) (clip : mu_Rect) (font : mu_FontDescriptor)
    (text : List Nat) (y : Int) : Nat → Nat → Int → List (Int × Int) × Int
  | 0, _, x => ([], x)
  | fuel + 1, pos, x =>
    if byteAt text pos = 0 then ([], x)
    else
      let dec := next_utf8_codepoint fun j => byteAt text (pos + j)
      if dec.2 = 0 then ([], x)
      else
        match find_glyph font dec.1 with
        | some glyph =>
          let ws := draw_glyph W H clip glyph x y font
          let rest := renderer_draw_text_go W H clip font text y fuel (pos + dec.2)
            (x + (glyph.width : Int) + (font.char_spacing : Int))
          (ws ++ rest.1, rest.2)
        | none =>
          renderer_draw_text_go W H clip font text y fuel (pos + dec.2)
            (x + (font.default_width : Int) + (font.char_spacing : Int))

/-- Model of `renderer_draw_text` (zmu.c): writes and final cursor x. -/
def renderer_draw_text (W H : Int) (clip : mu_Rect) (font : mu_FontDescriptor)
    (text : List Nat) (pos : Int × Int) : List (Int × Int) × Int :=
  renderer_draw_text_go W H clip font text pos.2 (text.length + 1) 0 pos.1

/-- Loop of `renderer_get_text_width` (zmu.c), in recursive form:
returns the sum of glyph widths and the decoded character count for the
measured span.  The C loop accumulates `width` and `char_count` in
place; the recursion returns the same totals.  Fuel `len + 1` dominates
the iteration count since each iteration consumes at least one byte. -/
def renderer_get_text_width_go (font : mu_FontDescriptor) (text : List Nat)
    (len : Nat) : Nat → Nat → Nat × Nat
  | 0, _ => (0, 0)
  | fuel + 1, pos =>
    if pos < len ∧ byteAt text pos ≠ 0 then
      let dec := next_utf8_codepoint fun j => byteAt text (pos + j)
      if dec.2 = 0 ∨ len < pos + dec.2 then (0, 0)
      else
        let gw := match find_glyph font dec.1 with
          | some glyph => glyph.width
          | none => font.default_width
        let rest := renderer_get_text_width_go font text len fuel (pos + dec.2)
        (gw + rest.1, rest.2 + 1)
    else (0, 0)

/-- Model of `renderer_get_text_width` (zmu.c) for a nonnegative `len`:
sums the glyph widths of the measured span and adds the inter-glyph
spacing between consecutive characters only. -/
def renderer_get_text_width (font : mu_FontDescriptor) (text : List Nat)
    (len : Nat) : Nat :=
  let wc := renderer_get_text_width_go font text len (len + 1) 0
  if 0 < wc.2 then wc.1 + (wc.2 - 1) * font.char_spacing else wc.1

/-- Decoding at a position inside the string stays inside the string:
the consumed span does not cross the NUL terminator, and is nonempty. -/
theorem decode_span_le (text : List Nat) (pos : Nat) (hpos : pos < strlen text) :
    pos + (next_utf8_codepoint fun j => byteAt text (pos + j)).2 ≤ strlen text ∧
    1 ≤ (next_utf8_codepoint fun j => byteAt text (pos + j)).2 := by
  have hb : byteAt text pos ≠ 0 := byteAt_lt_strlen _ _ hpos
  have h1 : 1 ≤ (next_utf8_codepoint fun j => byteAt text (pos + j)).2 :=
    next_utf8_codepoint_progress _ (by simpa using hb)
  refine ⟨?_, h1⟩
  by_contra h
  push_neg at h
  have hj : strlen text - pos < (next_utf8_codepoint fun j => byteAt text (pos + j)).2 := by
    omega
  have hcontra := next_utf8_codepoint_span (fun j => byteAt text (pos + j)) _ hj
  simp only at hcontra
  apply hcontra
  have heq : pos + (strlen text - pos) = strlen text := by omega
  rw [heq]
  exact byteAt_strlen text

/-- The draw cursor displacement decomposes as the sum of the glyph
widths plus one inter-glyph spacing per decoded character: draw and
measurement resolve glyphs identically, but the draw loop adds the
spacing after every character including the last. -/
theorem draw_text_go_width_go (W H : Int) (clip : mu_Rect) (font : mu_FontDescriptor)
    (text : List Nat) (y : Int) (fuel fuel2 pos : Nat) (x : Int)
    (hpos : pos ≤ strlen text) (hf : strlen text - pos < fuel)
    (hf2 : strlen text - pos < fuel2) :
    (renderer_draw_text_go W H clip font text y fuel pos x).2 =
      x + ((renderer_get_text_width_go font text (strlen text) fuel2 pos).1 : Int) +
        ((renderer_get_text_width_go font text (strlen text) fuel2 pos).2 : Int) *
          (font.char_spacing : Int) := by
  induction fuel generalizing fuel2 pos x with
  | zero => omega
  | succ fuel ih =>
    obtain ⟨f2, rfl⟩ : ∃ f2, fuel2 = f2 + 1 := ⟨fuel2 - 1, by omega⟩
    rw [renderer_draw_text_go, renderer_get_text_width_go]
    by_cases hend : pos = strlen text
    · rw [if_pos (by rw [hend]; exact byteAt_strlen text),
        if_neg (by simp [hend])]
      simp
    · have hlt : pos < strlen text := by omega
      have hb : byteAt text pos ≠ 0 := byteAt_lt_strlen _ _ hlt
      obtain ⟨hspan, hone⟩ := decode_span_le text pos hlt
      rw [if_neg hb,
        if_neg (show ¬(next_utf8_codepoint fun j => byteAt text (pos + j)).2 = 0 by omega),
        if_pos ⟨hlt, hb⟩,
        if_neg (show ¬((next_utf8_codepoint fun j => byteAt text (pos + j)).2 = 0 ∨
          strlen text < pos + (next_utf8_codepoint fun j => byteAt text (pos + j)).2) by
            omega)]
      cases hg : find_glyph font
          (next_utf8_codepoint fun j => byteAt text (pos + j)).1 with
      | none =>
        rw [ih f2 (pos + (next_utf8_codepoint fun j => byteAt text (pos + j)).2) _
          hspan (by omega) (by omega)]
        push_cast
        ring
      | some glyph =>
        simp only
        rw [ih f2 (pos + (next_utf8_codepoint fun j => byteAt text (pos + j)).2) _
          hspan (by omega) (by omega)]
        push_cast
        ring

/-- A nonempty string measures at least one character. -/
theorem width_go_char_count_pos (font : mu_FontDescriptor) (text : List Nat)
    (h : 0 < strlen text) :
    0 < (renderer_get_text_width_go font text (strlen text) (strlen text + 1) 0).2 := by
  obtain ⟨f2, hf2⟩ : ∃ f2, strlen text + 1 = f2 + 1 := ⟨strlen text, rfl⟩
  rw [hf2, renderer_get_text_width_go]
  have hb : byteAt text 0 ≠ 0 := byteAt_lt_strlen _ _ h
  obtain ⟨hspan, hone⟩ := decode_span_le text 0 h
  rw [if_pos ⟨h, hb⟩, if_neg (by omega)]
  simp

/-- Font used for the C1 counterexample: a single glyph for byte 97 of
width 3, default width 5, inter-glyph spacing 2. -/
def c1Font : mu_FontDescriptor :=
  ⟨8, 8, 5, 2, [⟨97, 3, fun _ => 0⟩]⟩

/-- C1 counterexample: on the one-character string consisting of byte 97
with `c1Font`, the measured text width is 3, while drawing the same
string displaces the cursor by 5 = 3 + char_spacing: the two quantities
differ whenever the spacing is nonzero and the string is nonempty. -/
theorem C1_counterexample :
    renderer_get_text_width c1Font [97] (strlen [97]) = 3 ∧
    (renderer_draw_text 64 64 (mu_rect 0 0 64 64) c1Font [97] (0, 0)).2 - 0 = 5 := by
  constructor
  · decide
  · decide

/-- C1 (amended): the cursor displacement of `renderer_draw_text` equals
the width measured by `renderer_get_text_width` (with `len = strlen`)
plus one extra `char_spacing` when the string is nonempty: both
functions resolve glyphs identically and advance by glyph width (or the
default width) plus spacing, but the draw loop also adds the spacing
after the final character, which the measurement does not count. -/
theorem C1_draw_advance_vs_text_width (W H : Int) (clip : mu_Rect)
    (font : mu_FontDescriptor) (text : List Nat) (pos : Int × Int) :
    (renderer_draw_text W H clip font text pos).2 - pos.1 =
      (renderer_get_text_width font text (strlen text) : Int) +
        (if 0 < strlen text then (font.char_spacing : Int) else 0) := by
  have hrel := draw_text_go_width_go W H clip font text pos.2 (text.length + 1)
    (strlen text + 1) 0 pos.1 (by omega)
    (by have := strlen_le_length text; omega) (by omega)
  rw [renderer_draw_text, renderer_get_text_width, hrel]
  by_cases hL : 0 < strlen text
  · have hcc := width_go_char_count_pos font text hL
    simp only [if_pos hL, if_pos hcc]
    have hcast :
        (((renderer_get_text_width_go font text (strlen text) (strlen text + 1) 0).2
          - 1 : Nat) : Int) =
        ((renderer_get_text_width_go font text (strlen text) (strlen text + 1) 0).2 : Int)
          - 1 := by
      have h1 := hcc
      omega
    push_cast [hcast]
    ring
  · have h0 : strlen text = 0 := by omega
    rw [h0] at hrel ⊢
    rw [renderer_get_text_width_go]
    simp

/-! ## ARGB-8888 alpha blending (`set_pixel_argb8888`, zmu.c) -/

/-- Blended pixel store from `set_pixel_argb8888` (zmu.c) with
CONFIG_MICROUI_ALPHA_BLENDING enabled: given the destination pixel
currently in the framebuffer and the source pixel (both packed
ARGB-8888 words), returns the word stored back.  The per-channel
results are assigned to uint8_t variables in C, hence the mod-256
truncation; `out_a` is a uint16_t and needs no truncation. -/
def set_pixel_argb8888 (dst pixel : Nat) : Nat :=
  let src_a := (pixel >>> 24) &&& 0xFF
  if src_a = 255 then pixel
  else if 0 < src_a then
    let dst_a := (dst >>> 24) &&& 0xFF
    let dst_r := (dst >>> 16) &&& 0xFF
    let dst_g := (dst >>> 8) &&& 0xFF
    let dst_b := dst &&& 0xFF
    let src_r := (pixel >>> 16) &&& 0xFF
    let src_g := (pixel >>> 8) &&& 0xFF
    let src_b := pixel &&& 0xFF
    let inv_a := 255 - src_a
    let out_a := src_a + dst_a * inv_a / 255
    if 0 < out_a then
      let out_r := (src_r * src_a + dst_r * dst_a * inv_a / 255) / out_a % 256
      let out_g := (src_g * src_a + dst_g * dst_a * inv_a / 255) / out_a % 256
      let out_b := (src_b * src_a + dst_b * dst_a * inv_a / 255) / out_a % 256
      (out_a <<< 24) ||| (out_r <<< 16) ||| (out_g <<< 8) ||| out_b
    else dst
  else dst

/-- Channel `i` (0 = blue, 1 = green, 2 = red, 3 = alpha) of a packed
ARGB-8888 word. -/
def argb_channel (i v : Nat) : Nat := (v >>> (8 * i)) &&& 0xFF

/-- Packing four bytes into an ARGB-8888 word equals the positional
arithmetic sum. -/
theorem argb_pack_eq (a r g b : Nat) (ha : a < 256) (hr : r < 256) (hg : g < 256)
    (hb : b < 256) :
    (a <<< 24) ||| (r <<< 16) ||| (g <<< 8) ||| b =
      a * 2 ^ 24 + r * 2 ^ 16 + g * 2 ^ 8 + b := by
  have hbound1 : r * 2 ^ 16 < 2 ^ 24 := by
    have : r * 2 ^ 16 < 256 * 2 ^ 16 := by
      exact Nat.mul_lt_mul_of_lt_of_le hr (Nat.le_refl _) (by norm_num)
    omega
  have hbound2 : g * 2 ^ 8 < 2 ^ 16 := by
    have : g * 2 ^ 8 < 256 * 2 ^ 8 := by
      exact Nat.mul_lt_mul_of_lt_of_le hg (Nat.le_refl _) (by norm_num)
    omega
  have h1 : a <<< 24 ||| r <<< 16 = a * 2 ^ 24 + r * 2 ^ 16 := by
    rw [Nat.shiftLeft_eq, Nat.shiftLeft_eq, Nat.mul_comm a, ← Nat.mul_add_lt_is_or hbound1,
      Nat.mul_comm]
  have h2 : a * 2 ^ 24 + r * 2 ^ 16 ||| g <<< 8 =
      a * 2 ^ 24 + r * 2 ^ 16 + g * 2 ^ 8 := by
    have hfac : a * 2 ^ 24 + r * 2 ^ 16 = 2 ^ 16 * (a * 2 ^ 8 + r) := by ring
    rw [Nat.shiftLeft_eq, hfac, ← Nat.mul_add_lt_is_or hbound2]
  have h3 : a * 2 ^ 24 + r * 2 ^ 16 + g * 2 ^ 8 ||| b =
      a * 2 ^ 24 + r * 2 ^ 16 + g * 2 ^ 8 + b := by
    have hfac : a * 2 ^ 24 + r * 2 ^ 16 + g * 2 ^ 8 =
        2 ^ 8 * (a * 2 ^ 16 + r * 2 ^ 8 + g) := by ring
    rw [hfac, ← Nat.mul_add_lt_is_or (by omega)]
  rw [h1, h2, h3]

/-- Channel extraction of a packed ARGB-8888 word. -/
theorem argb_channel_pack (a r g b : Nat) (ha : a < 256) (hr : r < 256) (hg : g < 256)
    (hb : b < 256) :
    argb_channel 3 ((a <<< 24) ||| (r <<< 16) ||| (g <<< 8) ||| b) = a ∧
    argb_channel 2 ((a <<< 24) ||| (r <<< 16) ||| (g <<< 8) ||| b) = r ∧
    argb_channel 1 ((a <<< 24) ||| (r <<< 16) ||| (g <<< 8) ||| b) = g ∧
    argb_channel 0 ((a <<< 24) ||| (r <<< 16) ||| (g <<< 8) ||| b) = b := by
  rw [argb_pack_eq a r g b ha hr hg hb]
  have hmask : ∀ x : Nat, x &&& 0xFF = x % 2 ^ 8 := fun x => by
    have := Nat.and_pow_two_sub_one_eq_mod x 8
    norm_num at this ⊢
    exact this
  simp only [argb_channel, Nat.shiftRight_eq_div_pow, hmask]
  norm_num
  omega

/-- C8 counterexample: blending source ARGB(1, 255, 255, 255) over
destination ARGB(100, 255, 255, 255) yields the per-channel formula
value (255*1 + 255*100*254/255) / (1 + 100*254/255) = 256, but the
stored red channel is 256 % 256 = 0 (uint8_t truncation), so the stored
result is not the exact formula value. -/
theorem C8_counterexample :
    (255 * 1 + 255 * 100 * 254 / 255) / (1 + 100 * 254 / 255) = 256 ∧
    argb_channel 2 (set_pixel_argb8888 0x64FFFFFF 0x01FFFFFF) = 0 := by
  constructor
  · decide
  · decide

/-- C8 (amended): with alpha blending enabled, a source pixel with
alpha 255 overwrites the destination directly; for 0 < src_a < 255 the
stored alpha channel equals src_a + dst_a*(255-src_a)/255 exactly, and
each stored color channel equals
(src_c*src_a + dst_c*dst_a*(255-src_a)/255) / out_a reduced mod 256
(the C code assigns the quotient to a uint8_t, truncating instead of
clamping values above 255). -/
theorem C8_argb8888_blend (dst pixel : Nat) :
    ((pixel >>> 24) &&& 0xFF = 255 → set_pixel_argb8888 dst pixel = pixel) ∧
    (0 < (pixel >>> 24) &&& 0xFF → (pixel >>> 24) &&& 0xFF < 255 →
      (argb_channel 3 (set_pixel_argb8888 dst pixel) =
        ((pixel >>> 24) &&& 0xFF) +
          ((dst >>> 24) &&& 0xFF) * (255 - ((pixel >>> 24) &&& 0xFF)) / 255) ∧
      (argb_channel 2 (set_pixel_argb8888 dst pixel) =
        (((pixel >>> 16) &&& 0xFF) * ((pixel >>> 24) &&& 0xFF) +
          ((dst >>> 16) &&& 0xFF) * ((dst >>> 24) &&& 0xFF) *
            (255 - ((pixel >>> 24) &&& 0xFF)) / 255) /
          (((pixel >>> 24) &&& 0xFF) +
            ((dst >>> 24) &&& 0xFF) * (255 - ((pixel >>> 24) &&& 0xFF)) / 255) % 256) ∧
      (argb_channel 1 (set_pixel_argb8888 dst pixel) =
        (((pixel >>> 8) &&& 0xFF) * ((pixel >>> 24) &&& 0xFF) +
          ((dst >>> 8) &&& 0xFF) * ((dst >>> 24) &&& 0xFF) *
            (255 - ((pixel >>> 24) &&& 0xFF)) / 255) /
          (((pixel >>> 24) &&& 0xFF) +
            ((dst >>> 24) &&& 0xFF) * (255 - ((pixel >>> 24) &&& 0xFF)) / 255) % 256) ∧
      (argb_channel 0 (set_pixel_argb8888 dst pixel) =
        ((pixel &&& 0xFF) * ((pixel >>> 24) &&& 0xFF) +
          (dst &&& 0xFF) * ((dst >>> 24) &&& 0xFF) *
            (255 - ((pixel >>> 24) &&& 0xFF)) / 255) /
          (((pixel >>> 24) &&& 0xFF) +
            ((dst >>> 24) &&& 0xFF) * (255 - ((pixel >>> 24) &&& 0xFF)) / 255) % 256)) := by
  constructor
  · intro h255
    simp [set_pixel_argb8888, h255]
  · intro hpos hlt
    have hdst_a : (dst >>> 24) &&& 0xFF ≤ 255 := Nat.and_le_right
    have hdiv : ((dst >>> 24) &&& 0xFF) * (255 - ((pixel >>> 24) &&& 0xFF)) / 255 ≤
        255 - ((pixel >>> 24) &&& 0xFF) := by
      have hmul : ((dst >>> 24) &&& 0xFF) * (255 - ((pixel >>> 24) &&& 0xFF)) ≤
          255 * (255 - ((pixel >>> 24) &&& 0xFF)) :=
        Nat.mul_le_mul_right _ hdst_a
      have := Nat.div_le_div_right (c := 255) hmul
      rwa [Nat.mul_div_cancel_left _ (by norm_num)] at this
    have houta : 0 < ((pixel >>> 24) &&& 0xFF) +
        ((dst >>> 24) &&& 0xFF) * (255 - ((pixel >>> 24) &&& 0xFF)) / 255 :=
      Nat.lt_of_lt_of_le hpos (Nat.le_add_right _ _)
    simp only [set_pixel_argb8888]
    rw [if_neg (show ¬((pixel >>> 24) &&& 0xFF = 255) by omega), if_pos hpos, if_pos houta]
    have hch := argb_channel_pack
      (((pixel >>> 24) &&& 0xFF) +
        ((dst >>> 24) &&& 0xFF) * (255 - ((pixel >>> 24) &&& 0xFF)) / 255)
      ((((pixel >>> 16) &&& 0xFF) * ((pixel >>> 24) &&& 0xFF) +
        ((dst >>> 16) &&& 0xFF) * ((dst >>> 24) &&& 0xFF) *
          (255 - ((pixel >>> 24) &&& 0xFF)) / 255) /
        (((pixel >>> 24) &&& 0xFF) +
          ((dst >>> 24) &&& 0xFF) * (255 - ((pixel >>> 24) &&& 0xFF)) / 255) % 256)
      ((((pixel >>> 8) &&& 0xFF) * ((pixel >>> 24) &&& 0xFF) +
        ((dst >>> 8) &&& 0xFF) * ((dst >>> 24) &&& 0xFF) *
          (255 - ((pixel >>> 24) &&& 0xFF)) / 255) /
        (((pixel >>> 24) &&& 0xFF) +
          ((dst >>> 24) &&& 0xFF) * (255 - ((pixel >>> 24) &&& 0xFF)) / 255) % 256)
      (((pixel &&& 0xFF) * ((pixel >>> 24) &&& 0xFF) +
        (dst &&& 0xFF) * ((dst >>> 24) &&& 0xFF) *
          (255 - ((pixel >>> 24) &&& 0xFF)) / 255) /
        (((pixel >>> 24) &&& 0xFF) +
          ((dst >>> 24) &&& 0xFF) * (255 - ((pixel >>> 24) &&& 0xFF)) / 255) % 256)
      (by omega) (Nat.mod_lt _ (by norm_num)) (Nat.mod_lt _ (by norm_num))
      (Nat.mod_lt _ (by norm_num))
    exact ⟨hch.1, hch.2.1, hch.2.2.1, hch.2.2.2⟩

/-- Witness for C8: a fully opaque source pixel overwrites the
destination, and a half-transparent source over a transparent black
destination stores the blended alpha per the formula. -/
theorem C8_witness :
    set_pixel_argb8888 0 0xFFABCDEF = 0xFFABCDEF ∧
    argb_channel 3 (set_pixel_argb8888 0 0x80FF0000) =
      ((0x80FF0000 >>> 24) &&& 0xFF) +
        ((0 >>> 24) &&& 0xFF) * (255 - ((0x80FF0000 >>> 24) &&& 0xFF)) / 255 :=
  ⟨(C8_argb8888_blend 0 0xFFABCDEF).1 (by decide),
    ((C8_argb8888_blend 0 0x80FF0000).2 (by decide) (by decide)).1⟩

/-! ## Animation engine (animation.c)

mu_Real (float) is idealized as the rationals.  C easing function
pointers are modelled by the inductive `EasingPtr` (pointer identity is
value identity, with `user n` for caller-supplied functions); calling
through a pointer is `evalEasing`.  The four easings built on
transcendental libm calls (sine family, elastic) have no exact rational
counterpart and are kept abstract through the `ext` parameter, which
every theorem quantifies over. -/

/-- Identity of a C easing function pointer: the fourteen built-in
easings of animation.c plus arbitrary caller-supplied functions. -/
inductive EasingPtr where
  | ease_linear
  | ease_in
  | ease_out
  | ease_in_out
  | ease_in_quad
  | ease_out_quad
  | ease_in_out_quad
  | ease_in_cubic
  | ease_out_cubic
  | ease_in_out_cubic
  | ease_out_elastic
  | ease_out_bounce
  | ease_in_back
  | ease_out_back
  | user (n : Nat)
deriving DecidableEq, Repr

/-- Calling an easing function pointer on a progress value.  The
polynomial easings are translated from animation.c (float constants as
exact rationals); the transcendental ones and caller-supplied functions
defer to `ext`. -/
def evalEasing (ext : EasingPtr → ℚ → ℚ) : EasingPtr → ℚ → ℚ
  | .ease_linear => fun t => t
  | .ease_in_quad => fun t => t * t
  | .ease_out_quad => fun t => t * (2 - t)
  | .ease_in_out_quad => fun t =>
      if t < 0.5 then 2 * t * t else -1 + (4 - 2 * t) * t
  | .ease_in_cubic => fun t => t * t * t
  | .ease_out_cubic => fun t => (t - 1) * (t - 1) * (t - 1) + 1
  | .ease_in_out_cubic => fun t =>
      if t < 0.5 then 4 * t * t * t
      else 0.5 * (2 * t - 2) * (2 * t - 2) * (2 * t - 2) + 1
  | .ease_out_bounce => fun t =>
      if t < 1 / 2.75 then 7.5625 * t * t
      else if t < 2 / 2.75 then 7.5625 * (t - 1.5 / 2.75) * (t - 1.5 / 2.75) + 0.75
      else if t < 2.5 / 2.75 then 7.5625 * (t - 2.25 / 2.75) * (t - 2.25 / 2.75) + 0.9375
      else 7.5625 * (t - 2.625 / 2.75) * (t - 2.625 / 2.75) + 0.984375
  | .ease_in_back => fun t => t * t * ((1.70158 + 1) * t - 1.70158)
  | .ease_out_back => fun t =>
      (t - 1) * (t - 1) * ((1.70158 + 1) * (t - 1) + 1.70158) + 1
  | e => ext e

/-- The lookup table `easing_funcs` of animation.c, indexed by the
`enum mu_easing` values in declaration order. -/
def easing_funcs : List EasingPtr :=
  [.ease_linear, .ease_in, .ease_out, .ease_in_out, .ease_in_quad, .ease_out_quad,
    .ease_in_out_quad, .ease_in_cubic, .ease_out_cubic, .ease_in_out_cubic,
    .ease_out_elastic, .ease_out_bounce, .ease_in_back, .ease_out_back]

/-- Value of `MU_EASE_MAX` from `enum mu_easing` (animation.h). -/
def MU_EASE_MAX : Nat := 14

/-- The BUILD_ASSERT of animation.c: the lookup table covers exactly the
enum range. -/
theorem easing_funcs_length : easing_funcs.length = MU_EASE_MAX := rfl

/-- Animation state, from `mu_AnimState` (microui.h). -/
structure mu_AnimState where
  current : ℚ
  start : ℚ
  «end» : ℚ
  start_time_ms : Nat
  duration_ms : Nat
  easing : Option EasingPtr
  finished : Bool
  loop : Bool
deriving DecidableEq, Repr

/-- A `memset(state, 0, sizeof(mu_AnimState))` state: all fields zero,
the easing pointer NULL. -/
def zeroAnimState : mu_AnimState := ⟨0, 0, 0, 0, 0, none, false, false⟩

/-- Pool slot, from `mu_PoolItem` (microui.h). -/
structure mu_PoolItem where
  id : Nat
  last_update : Int
deriving DecidableEq, Repr

/-- Free pool slot (id 0 is the sentinel). -/
def freePoolItem : mu_PoolItem := ⟨0, 0⟩

/-- The slice of `mu_Context` (microui.h) read and written by the
animation engine: the frame counter, the current time, and the
animation pool with its state array (both of length
MU_ANIM_POOL_SIZE). -/
structure mu_Context where
  frame : Int
  curr_time_ms : Nat
  anim_pool : List mu_PoolItem
  anim_states : List mu_AnimState
deriving DecidableEq, Repr

/-- Modelled from the spec: `mu_pool_get` (declared in microui.h, body
not among the sources): linear scan for a live slot (id different from
the free sentinel) with matching id; returns the index or not-found. -/
def mu_pool_get (pool : List mu_PoolItem) (id : Nat) : Option Nat :=
  pool.findIdx? fun it => it.id == id && it.id != 0

/-- Modelled from the spec: `mu_pool_init` (declared in microui.h, body
not among the sources): claims the first slot whose id is the free
sentinel, stamping it with the requesting id and the current frame;
reports pool-full (none) when no free slot exists. -/
def mu_pool_init (frame : Int) (pool : List mu_PoolItem) (id : Nat) :
    Option Nat × List mu_PoolItem :=
  match pool.findIdx? fun it => it.id == 0 with
  | some i => (some i, pool.set i ⟨id, frame⟩)
  | none => (none, pool)

/-- Modelled from the spec: `mu_pool_update` (declared in microui.h,
body not among the sources): stamps the slot's last-touched frame with
the current frame counter. -/
def mu_pool_update (frame : Int) (pool : List mu_PoolItem) (idx : Nat) :
    List mu_PoolItem :=
  pool.set idx ⟨(pool.getD idx freePoolItem).id, frame⟩

/-- Scan loop of the pool-full fallback in `get_anim_state`
(animation.c): walks the pool keeping the index and value of the oldest
`last_update` seen so far, starting from `oldest_idx = -1` (modelled as
`none`) and `oldest_frame = ctx->frame`, updating on strict decrease. -/
def oldest_scan_go : List mu_PoolItem → Nat → Option Nat × Int → Option Nat × Int
  | [], _, acc => acc
  | it :: rest, i, acc =>
    oldest_scan_go rest (i + 1)
      (if it.last_update < acc.2 then (some i, it.last_update) else acc)

/-- Oldest-entry scan of `get_anim_state` (animation.c). -/
def oldest_scan (frame : Int) (pool : List mu_PoolItem) : Option Nat × Int :=
  oldest_scan_go pool 0 (none, frame)

/-- Lookup/creation of the animation state for an id, from
`get_anim_state` (animation.c): existing slot (touch and return), else
if creating, a fresh slot from the pool, else the LRU fallback; returns
the slot index (none when no slot could be produced) and the updated
context. -/
def get_anim_state (ctx : mu_Context) (id : Nat) (create : Bool) :
    Option Nat × mu_Context :=
  match mu_pool_get ctx.anim_pool id with
  | some idx =>
    (some idx, { ctx with anim_pool := mu_pool_update ctx.frame ctx.anim_pool idx })
  | none =>
    if !create then (none, ctx)
    else
      match mu_pool_init ctx.frame ctx.anim_pool id with
      | (some idx, pool1) =>
        (some idx,
          { ctx with
            anim_pool := pool1,
            anim_states := ctx.anim_states.set idx zeroAnimState })
      | (none, _) =>
        match oldest_scan ctx.frame ctx.anim_pool with
        | (some oldest_idx, _) =>
          let pool1 := ctx.anim_pool.set oldest_idx
            ⟨id, (ctx.anim_pool.getD oldest_idx freePoolItem).last_update⟩
          (some oldest_idx, { ctx with
            anim_pool := mu_pool_update ctx.frame pool1 oldest_idx,
            anim_states := ctx.anim_states.set oldest_idx zeroAnimState })
        | (none, _) => (none, ctx)

/-- Truncated uint32 subtraction, as `ctx->curr_time_ms -
state->start_time_ms` in C. -/
def usub32 (a b : Nat) : Nat := (a + (2 ^ 32 - b % 2 ^ 32)) % 2 ^ 32

/-- Restart-or-keep step of `mu_anim_ex` (animation.c): if this is a
new animation (fresh zeroed state) or any of the five parameters
differs from the stored tuple, every parameter field is re-stored,
`start_time_ms` is set to the current time, the finished flag cleared
and `current` reset to the freshly supplied start. -/
def anim_effective_state (state : mu_AnimState) (curr_time_ms : Nat) (start e : ℚ)
    (duration_ms : Nat) (easing : EasingPtr) (loop : Bool) : mu_AnimState :=
  if state.duration_ms ≠ duration_ms ∨ state.start ≠ start ∨ state.«end» ≠ e ∨
      state.easing ≠ some easing ∨ state.loop ≠ loop then
    { state with
      start := start,
      «end» := e,
      duration_ms := duration_ms,
      start_time_ms := curr_time_ms,
      easing := some easing,
      finished := false,
      current := start,
      loop := loop }
  else state

/-- Body of `mu_anim_ex` (animation.c) after the state lookup and the
NULL-to-linear easing substitution: restart-or-keep, progress
computation, easing, interpolation and the loop/finish update.  The C
code calls through `state->easing`, which at this point always equals
the substituted `easing` argument; the model reads the stored pointer,
defaulting the impossible NULL case to linear. -/
def mu_anim_ex_core (ext : EasingPtr → ℚ → ℚ) (ctx1 : mu_Context) (idx : Nat)
    (start e : ℚ) (duration_ms : Nat) (easing : EasingPtr) (loop : Bool) :
    ℚ × mu_Context :=
  let state := ctx1.anim_states.getD idx zeroAnimState
  -- Initialize if this is a new animation or parameters changed
  let state := anim_effective_state state ctx1.curr_time_ms start e duration_ms
    easing loop
  -- Calculate progress
  let elapsed := usub32 ctx1.curr_time_ms state.start_time_ms
  let t : ℚ := if 0 < duration_ms then (elapsed : ℚ) / (duration_ms : ℚ) else 1
  let t := if 1 ≤ t then 1 else t
  -- Apply easing and interpolate (CLAMP(t, 0, 1) = min 1 (max 0 t))
  let eased := evalEasing ext (state.easing.getD .ease_linear) (min 1 (max 0 t))
  let state := { state with
    current := state.start + (state.«end» - state.start) * eased }
  -- Reset loop AFTER calculating the value, so the end value is returned first
  let state :=
    if 1 ≤ t then
      if state.loop then { state with start_time_ms := ctx1.curr_time_ms }
      else { state with finished := true }
    else state
  (state.current, { ctx1 with anim_states := ctx1.anim_states.set idx state })

/-- Model of `mu_anim_ex` (animation.c): returns the animated value and
the updated context. -/
def mu_anim_ex (ext : EasingPtr → ℚ → ℚ) (ctx : mu_Context) (id : Nat)
    (start e : ℚ) (duration_ms : Nat) (easing : Option EasingPtr) (loop : Bool) :
    ℚ × mu_Context :=
  match get_anim_state ctx id true with
  | (none, ctx1) => (e, ctx1)
  | (some idx, ctx1) =>
    -- Use linear if no easing provided
    mu_anim_ex_core ext ctx1 idx start e duration_ms (easing.getD .ease_linear) loop

/-- Model of `mu_anim` (animation.c): dispatches the easing enum value
through `easing_funcs`, substituting linear for any out-of-range
value. -/
def mu_anim (ext : EasingPtr → ℚ → ℚ) (ctx : mu_Context) (id : Nat) (start e : ℚ)
    (duration_ms : Nat) (easing : Nat) (loop : Bool) : ℚ × mu_Context :=
  let func := if easing < easing_funcs.length then easing_funcs.getD easing .ease_linear
    else .ease_linear
  mu_anim_ex ext ctx id start e duration_ms (some func) loop

/-- Model of `mu_anim_done` (animation.c): true when no state exists
for the id (lookup without creation), else the stored finished flag. -/
def mu_anim_done (ctx : mu_Context) (id : Nat) : Bool × mu_Context :=
  match get_anim_state ctx id false with
  | (none, ctx1) => (true, ctx1)
  | (some idx, ctx1) => ((ctx1.anim_states.getD idx zeroAnimState).finished, ctx1)

/-! ## Helper lemmas for the animation engine -/

theorem usub32_self (a : Nat) : usub32 a a = 0 := by
  unfold usub32
  omega

theorem usub32_of_le (a b : Nat) (hb : b ≤ a) (ha : a < 2 ^ 32) :
    usub32 a b = a - b := by
  unfold usub32
  have hbm : b % 2 ^ 32 = b := Nat.mod_eq_of_lt (by omega)
  omega

theorem getD_set_self {α : Type} (l : List α) (i : Nat) (a d : α) (h : i < l.length) :
    (l.set i a).getD i d = a := by
  simp [List.getD_eq_getElem?_getD, List.getElem?_set_self h]

theorem getD_set_ne {α : Type} (l : List α) (i j : Nat) (a d : α) (h : i ≠ j) :
    (l.set i a).getD j d = l.getD j d := by
  simp [List.getD_eq_getElem?_getD, List.getElem?_set_ne h]

theorem mu_pool_update_id (frame : Int) (pool : List mu_PoolItem) (idx j : Nat) :
    ((mu_pool_update frame pool idx).getD j freePoolItem).id =
      (pool.getD j freePoolItem).id := by
  unfold mu_pool_update
  by_cases h : idx = j
  · subst h
    by_cases hlt : idx < pool.length
    · rw [getD_set_self _ _ _ _ hlt]
    · rw [List.set_eq_of_length_le (by omega)]
  · rw [getD_set_ne _ _ _ _ _ h]

/-- Invariants of the oldest-entry scan loop: the resulting minimum is
at most the accumulator and every scanned entry, and the result is
either the untouched accumulator or a real index paired with its
entry value. -/
theorem oldest_scan_go_spec (l : List mu_PoolItem) (i : Nat) (acc : Option Nat × Int) :
    (oldest_scan_go l i acc).2 ≤ acc.2 ∧
    (∀ j, j < l.length → (oldest_scan_go l i acc).2 ≤ (l.getD j freePoolItem).last_update) ∧
    (oldest_scan_go l i acc = acc ∨
      ∃ k, k < l.length ∧
        oldest_scan_go l i acc = (some (i + k), (l.getD k freePoolItem).last_update) ∧
        (l.getD k freePoolItem).last_update < acc.2) := by
  induction l generalizing i acc with
  | nil => exact ⟨le_refl _, fun j hj => by simp at hj, Or.inl rfl⟩
  | cons it rest ih =>
    rw [oldest_scan_go]
    by_cases hc : it.last_update < acc.2
    · rw [if_pos hc]
      obtain ⟨h1, h2, h3⟩ := ih (i + 1) (some i, it.last_update)
      refine ⟨le_trans h1 (le_of_lt hc), ?_, ?_⟩
      · intro j hj
        match j with
        | 0 => simpa using h1
        | j + 1 => simpa using h2 j (by simpa using hj)
      · rcases h3 with h3 | ⟨k, hk, h3, hlt⟩
        · exact Or.inr ⟨0, by simp, by simpa using h3, by simpa using hc⟩
        · refine Or.inr ⟨k + 1, by simpa using hk, ?_, ?_⟩
          · rw [h3]
            simp only [List.getD_cons_succ, Prod.mk.injEq, Option.some.injEq]
            exact ⟨by omega, trivial⟩
          · simp only [List.getD_cons_succ]
            exact lt_trans hlt hc
    · rw [if_neg hc]
      obtain ⟨h1, h2, h3⟩ := ih (i + 1) acc
      refine ⟨h1, ?_, ?_⟩
      · intro j hj
        match j with
        | 0 => simpa using le_trans h1 (by omega)
        | j + 1 => simpa using h2 j (by simpa using hj)
      · rcases h3 with h3 | ⟨k, hk, h3, hlt⟩
        · exact Or.inl h3
        · refine Or.inr ⟨k + 1, by simpa using hk, ?_, ?_⟩
          · rw [h3]
            simp only [List.getD_cons_succ, Prod.mk.injEq, Option.some.injEq]
            exact ⟨by omega, trivial⟩
          · simpa using hlt

/-- A successful `get_anim_state` lookup yields an index inside the
pool and preserves the time, frame and state-array length. -/
theorem get_anim_state_some (ctx : mu_Context) (id : Nat) (create : Bool) (idx : Nat)
    (ctx1 : mu_Context) (h : get_anim_state ctx id create = (some idx, ctx1)) :
    idx < ctx.anim_pool.length ∧ ctx1.curr_time_ms = ctx.curr_time_ms ∧
    ctx1.frame = ctx.frame ∧ ctx1.anim_states.length = ctx.anim_states.length := by
  unfold get_anim_state at h
  cases hg : mu_pool_get ctx.anim_pool id with
  | some i =>
    rw [hg] at h
    simp only [Prod.mk.injEq, Option.some.injEq] at h
    obtain ⟨rfl, rfl⟩ := h
    have hi := List.findIdx?_eq_some_iff_getElem.1 hg
    exact ⟨hi.1, rfl, rfl, rfl⟩
  | none =>
    rw [hg] at h
    cases create with
    | false => simp at h
    | true =>
      simp only [Bool.not_true, Bool.false_eq_true, if_false] at h
      cases hinit : (mu_pool_init ctx.frame ctx.anim_pool id).1 with
      | some i =>
        unfold mu_pool_init at h hinit
        cases hfind : ctx.anim_pool.findIdx? fun it => it.id == 0 with
        | some i2 =>
          rw [hfind] at h
          simp only [Prod.mk.injEq, Option.some.injEq] at h
          obtain ⟨rfl, rfl⟩ := h
          have hi := List.findIdx?_eq_some_iff_getElem.1 hfind
          exact ⟨hi.1, rfl, rfl, by simp⟩
        | none =>
          rw [hfind] at hinit
          simp at hinit
      | none =>
        unfold mu_pool_init at h hinit
        cases hfind : ctx.anim_pool.findIdx? fun it => it.id == 0 with
        | some i2 => rw [hfind] at hinit; simp at hinit
        | none =>
          rw [hfind] at h
          cases hold : oldest_scan ctx.frame ctx.anim_pool with
          | mk oi om =>
            rw [hold] at h
            cases oi with
            | none => simp at h
            | some k =>
              simp only [Prod.mk.injEq, Option.some.injEq] at h
              obtain ⟨rfl, rfl⟩ := h
              obtain ⟨_, _, h3⟩ := oldest_scan_go_spec ctx.anim_pool 0 (none, ctx.frame)
              rcases h3 with h3 | ⟨k2, hk2, h3, hlt2⟩
              · rw [oldest_scan] at hold
                rw [h3] at hold
                simp at hold
              · rw [oldest_scan] at hold
                rw [h3] at hold
                simp only [Prod.mk.injEq, Option.some.injEq] at hold
                obtain ⟨rfl, _⟩ := hold
                exact ⟨by omega, rfl, rfl, by simp⟩

/-- C9: when no animation state exists for an id, `mu_anim_done`
returns true and leaves the context untouched (no pool slot is created
or claimed, since the lookup passes create = false); when a state
exists, it returns exactly the stored finished flag, changing no slot
id and no animation state. -/
theorem C9_anim_done (ctx : mu_Context) (id : Nat) :
    (mu_pool_get ctx.anim_pool id = none → mu_anim_done ctx id = (true, ctx)) ∧
    (∀ idx, mu_pool_get ctx.anim_pool id = some idx →
      (mu_anim_done ctx id).1 = (ctx.anim_states.getD idx zeroAnimState).finished ∧
      (mu_anim_done ctx id).2.anim_states = ctx.anim_states ∧
      ∀ j, ((mu_anim_done ctx id).2.anim_pool.getD j freePoolItem).id =
        (ctx.anim_pool.getD j freePoolItem).id) := by
  constructor
  · intro hnone
    unfold mu_anim_done get_anim_state
    rw [hnone]
    rfl
  · intro idx hsome
    unfold mu_anim_done get_anim_state
    rw [hsome]
    exact ⟨rfl, rfl, fun j => mu_pool_update_id ctx.frame ctx.anim_pool idx j⟩

/-- Context used by the witnesses of the animation claims: a one-slot
pool holding id 5. -/
def ctxW : mu_Context := ⟨0, 0, [⟨5, 0⟩], [zeroAnimState]⟩

/-- Witness for C9: id 7 has no state in `ctxW`, so `mu_anim_done`
reports done and the context is unchanged; id 5 has a (fresh, not
finished) state, and `mu_anim_done` reports its finished flag. -/
theorem C9_witness :
    mu_anim_done ctxW 7 = (true, ctxW) ∧
    (mu_anim_done ctxW 5).1 = (ctxW.anim_states.getD 0 zeroAnimState).finished :=
  ⟨(C9_anim_done ctxW 7).1 (by decide),
    ((C9_anim_done ctxW 5).2 0 (by decide)).1⟩

/-- After the restart-or-keep step, all five parameter fields of the
state equal the supplied parameters: either the restart just stored
them, or the comparison found them all equal. -/
theorem anim_effective_state_params (state : mu_AnimState) (ct : Nat) (s e : ℚ)
    (d : Nat) (ep : EasingPtr) (lp : Bool) :
    (anim_effective_state state ct s e d ep lp).start = s ∧
    (anim_effective_state state ct s e d ep lp).«end» = e ∧
    (anim_effective_state state ct s e d ep lp).duration_ms = d ∧
    (anim_effective_state state ct s e d ep lp).easing = some ep ∧
    (anim_effective_state state ct s e d ep lp).loop = lp := by
  unfold anim_effective_state
  split_ifs with h
  · exact ⟨rfl, rfl, rfl, rfl, rfl⟩
  · push_neg at h
    exact ⟨h.2.1, h.2.2.1, h.1, h.2.2.2.1, h.2.2.2.2⟩

/-- Elapsed time as computed by `mu_anim_ex` after the restart-or-keep
step: current time minus the (possibly just reset) start time, in
uint32 arithmetic. -/
def anim_elapsed (ctx1 : mu_Context) (idx : Nat) (s e : ℚ) (d : Nat)
    (eff : EasingPtr) (lp : Bool) : Nat :=
  usub32 ctx1.curr_time_ms
    (anim_effective_state (ctx1.anim_states.getD idx zeroAnimState)
      ctx1.curr_time_ms s e d eff lp).start_time_ms

/-- Clamped progress as computed by `mu_anim_ex`: elapsed over duration
(1 when the duration is zero), capped at 1. -/
def anim_t (ctx1 : mu_Context) (idx : Nat) (s e : ℚ) (d : Nat) (eff : EasingPtr)
    (lp : Bool) : ℚ :=
  let t : ℚ := if 0 < d then ((anim_elapsed ctx1 idx s e d eff lp : ℚ) / (d : ℚ)) else 1
  if 1 ≤ t then 1 else t

/-- Evaluation of the `mu_anim_ex` body: the returned value interpolates
between the supplied endpoints at the eased clamped progress, the value
is stored in `current`, and the final loop/finished update behaves as
in the source. -/
theorem mu_anim_ex_core_spec (ext : EasingPtr → ℚ → ℚ) (ctx1 : mu_Context) (idx : Nat)
    (s e : ℚ) (d : Nat) (eff : EasingPtr) (lp : Bool)
    (hlen : idx < ctx1.anim_states.length) :
    (mu_anim_ex_core ext ctx1 idx s e d eff lp).1 =
      s + (e - s) * evalEasing ext eff (min 1 (max 0 (anim_t ctx1 idx s e d eff lp))) ∧
    ((mu_anim_ex_core ext ctx1 idx s e d eff lp).2.anim_states.getD idx
      zeroAnimState).current = (mu_anim_ex_core ext ctx1 idx s e d eff lp).1 ∧
    ((mu_anim_ex_core ext ctx1 idx s e d eff lp).2.anim_states.getD idx
      zeroAnimState).start_time_ms =
      (if 1 ≤ anim_t ctx1 idx s e d eff lp ∧ lp = true then ctx1.curr_time_ms
        else (anim_effective_state (ctx1.anim_states.getD idx zeroAnimState)
          ctx1.curr_time_ms s e d eff lp).start_time_ms) ∧
    ((mu_anim_ex_core ext ctx1 idx s e d eff lp).2.anim_states.getD idx
      zeroAnimState).finished =
      (if 1 ≤ anim_t ctx1 idx s e d eff lp ∧ lp = false then true
        else (anim_effective_state (ctx1.anim_states.getD idx zeroAnimState)
          ctx1.curr_time_ms s e d eff lp).finished) := by
  unfold mu_anim_ex_core anim_t anim_elapsed
  simp only [List.getD_eq_getElem?_getD]
  obtain ⟨hs, he, hd, hep, hlp⟩ := anim_effective_state_params
    ((ctx1.anim_states[idx]?).getD zeroAnimState) ctx1.curr_time_ms s e d eff lp
  generalize hst : anim_effective_state ((ctx1.anim_states[idx]?).getD zeroAnimState)
    ctx1.curr_time_ms s e d eff lp = st1
  rw [hst] at hs he hd hep hlp
  obtain ⟨c0, s0, e0, b0, d0, ea0, f0, l0⟩ := st1
  simp only at hs he hd hep hlp
  symm at hs he hd hlp
  subst hs he hd hep hlp
  by_cases h1 : 1 ≤ (if 0 < d then ((usub32 ctx1.curr_time_ms b0 : ℚ) / (d : ℚ)) else 1)
  · rw [if_pos h1]
    cases lp with
    | false =>
      simp [List.getElem?_set_self hlen, if_pos h1]
    | true =>
      simp [List.getElem?_set_self hlen, if_pos h1]
  · rw [if_neg h1]
    simp [List.getElem?_set_self hlen, if_neg h1, h1]

/-- When the stored tuple differs from the supplied parameters, the
restart branch is taken. -/
theorem anim_effective_state_restart (state : mu_AnimState) (ct : Nat) (s e : ℚ)
    (d : Nat) (ep : EasingPtr) (lp : Bool)
    (hdiff : state.duration_ms ≠ d ∨ state.start ≠ s ∨ state.«end» ≠ e ∨
      state.easing ≠ some ep ∨ state.loop ≠ lp) :
    (anim_effective_state state ct s e d ep lp).start_time_ms = ct ∧
    (anim_effective_state state ct s e d ep lp).current = s ∧
    (anim_effective_state state ct s e d ep lp).finished = false := by
  unfold anim_effective_state
  rw [if_pos hdiff]
  exact ⟨rfl, rfl, rfl⟩

/-- The clamped progress is already inside [0, 1], so the CLAMP in the
easing call is the identity on it. -/
theorem anim_t_clamped (ctx1 : mu_Context) (idx : Nat) (s e : ℚ) (d : Nat)
    (eff : EasingPtr) (lp : Bool) :
    min 1 (max 0 (anim_t ctx1 idx s e d eff lp)) = anim_t ctx1 idx s e d eff lp := by
  unfold anim_t
  by_cases h1 : 1 ≤ (if 0 < d then
      ((anim_elapsed ctx1 idx s e d eff lp : ℚ) / (d : ℚ)) else 1)
  · rw [if_pos h1]
    norm_num
  · rw [if_neg h1]
    split_ifs at h1 ⊢ with hd
    · have h0 : (0 : ℚ) ≤ (anim_elapsed ctx1 idx s e d eff lp : ℚ) / (d : ℚ) := by
        positivity
      rw [max_eq_right h0, min_eq_right (le_of_not_le h1)]
    · simp at h1

/-- C4: the first `mu_anim_ex` call for an id sees the freshly zeroed
state, whose stored easing (NULL) always differs from the substituted
easing pointer, and any call whose (start, end, duration, easing, loop)
tuple differs from the stored one restarts the transition: afterwards
the stored start time is the current time, the stored current value is
the freshly supplied start (which is also returned, the easing mapping
0 to 0 and the positive duration giving progress 0), and the finished
flag is clear. -/
theorem C4_anim_restart (ext : EasingPtr → ℚ → ℚ) (ctx : mu_Context) (id : Nat)
    (s e : ℚ) (d : Nat) (easing : Option EasingPtr) (lp : Bool) (idx : Nat)
    (ctx1 : mu_Context)
    (hget : get_anim_state ctx id true = (some idx, ctx1))
    (hlen : idx < ctx1.anim_states.length)
    (hdiff : (ctx1.anim_states.getD idx zeroAnimState).duration_ms ≠ d ∨
      (ctx1.anim_states.getD idx zeroAnimState).start ≠ s ∨
      (ctx1.anim_states.getD idx zeroAnimState).«end» ≠ e ∨
      (ctx1.anim_states.getD idx zeroAnimState).easing ≠
        some (easing.getD EasingPtr.ease_linear) ∨
      (ctx1.anim_states.getD idx zeroAnimState).loop ≠ lp)
    (hdur : 0 < d)
    (hease0 : evalEasing ext (easing.getD EasingPtr.ease_linear) 0 = 0) :
    zeroAnimState.easing ≠ some (easing.getD EasingPtr.ease_linear) ∧
    ((mu_anim_ex ext ctx id s e d easing lp).2.anim_states.getD idx
      zeroAnimState).start_time_ms = ctx.curr_time_ms ∧
    ((mu_anim_ex ext ctx id s e d easing lp).2.anim_states.getD idx
      zeroAnimState).current = s ∧
    ((mu_anim_ex ext ctx id s e d easing lp).2.anim_states.getD idx
      zeroAnimState).finished = false ∧
    (mu_anim_ex ext ctx id s e d easing lp).1 = s := by
  obtain ⟨hidx, hcurr, hframe, hslen⟩ := get_anim_state_some ctx id true idx ctx1 hget
  obtain ⟨hrs, hrc, hrf⟩ := anim_effective_state_restart
    (ctx1.anim_states.getD idx zeroAnimState) ctx1.curr_time_ms s e d
    (easing.getD EasingPtr.ease_linear) lp hdiff
  have hel : anim_elapsed ctx1 idx s e d (easing.getD EasingPtr.ease_linear) lp = 0 := by
    unfold anim_elapsed
    rw [hrs, usub32_self]
  have ht : anim_t ctx1 idx s e d (easing.getD EasingPtr.ease_linear) lp = 0 := by
    unfold anim_t
    rw [hel]
    rw [if_pos hdur]
    norm_num
  have hcore := mu_anim_ex_core_spec ext ctx1 idx s e d
    (easing.getD EasingPtr.ease_linear) lp hlen
  have hmu : mu_anim_ex ext ctx id s e d easing lp =
      mu_anim_ex_core ext ctx1 idx s e d (easing.getD EasingPtr.ease_linear) lp := by
    unfold mu_anim_ex
    rw [hget]
  have hval : (mu_anim_ex ext ctx id s e d easing lp).1 = s := by
    rw [hmu, hcore.1, ht]
    norm_num [hease0]
  refine ⟨by simp [zeroAnimState], ?_, ?_, ?_, hval⟩
  · rw [hmu, hcore.2.2.1, ht]
    rw [if_neg (by norm_num), hrs, hcurr]
  · rw [hmu, hcore.2.1, ← hmu, hval]
  · rw [hmu, hcore.2.2.2, ht]
    rw [if_neg (by norm_num), hrf]

/-- Witness for C4: calling `mu_anim_ex` in the one-slot context `ctxW`
for the fresh id 5 restarts (stores start time 0 = now, current = the
start value 1, finished clear) and returns the start value. -/
theorem C4_witness :
    ((mu_anim_ex (fun _ t => t) ctxW 5 1 2 5 none false).2.anim_states.getD 0
      zeroAnimState).start_time_ms = ctxW.curr_time_ms ∧
    ((mu_anim_ex (fun _ t => t) ctxW 5 1 2 5 none false).2.anim_states.getD 0
      zeroAnimState).current = 1 ∧
    ((mu_anim_ex (fun _ t => t) ctxW 5 1 2 5 none false).2.anim_states.getD 0
      zeroAnimState).finished = false ∧
    (mu_anim_ex (fun _ t => t) ctxW 5 1 2 5 none false).1 = 1 := by
  have h := C4_anim_restart (fun _ t => t) ctxW 5 1 2 5 none false 0 ctxW
    (by decide) (by decide)
    (Or.inr (Or.inr (Or.inr (Or.inl (by decide))))) (by decide) rfl
  exact ⟨h.2.1, h.2.2.1, h.2.2.2.1, h.2.2.2.2⟩

/-- At or beyond the duration the clamped progress saturates at 1. -/
theorem anim_t_at_end (ctx1 : mu_Context) (idx : Nat) (s e : ℚ) (d : Nat)
    (eff : EasingPtr) (lp : Bool)
    (h : d ≤ anim_elapsed ctx1 idx s e d eff lp) :
    anim_t ctx1 idx s e d eff lp = 1 := by
  have h1 : (1 : ℚ) ≤ (if 0 < d then
      ((anim_elapsed ctx1 idx s e d eff lp : ℚ) / (d : ℚ)) else 1) := by
    split_ifs with hd
    · rw [le_div_iff (by positivity)]
      calc (1 : ℚ) * (d : ℚ) = (d : ℚ) := by ring
        _ ≤ (anim_elapsed ctx1 idx s e d eff lp : ℚ) := by exact_mod_cast h
    · exact le_refl 1
  simp only [anim_t]
  rw [if_pos h1]

/-- C5: for a non-looping animation of positive duration, `mu_anim_ex`
at elapsed time 0 returns the start value; any call at elapsed time at
least the duration returns exactly the end value and, when not looping,
sets the finished flag; when looping it instead resets the stored start
time to the current time, after returning the end value for that call.
(The easing is assumed to map 0 to 0 and 1 to 1, as every built-in
easing does in exact arithmetic.) -/
theorem C5_anim_endpoints (ext : EasingPtr → ℚ → ℚ) (ctx : mu_Context) (id : Nat)
    (s e : ℚ) (d : Nat) (easing : Option EasingPtr) (lp : Bool) (idx : Nat)
    (ctx1 : mu_Context)
    (hget : get_anim_state ctx id true = (some idx, ctx1))
    (hlen : idx < ctx1.anim_states.length) :
    (0 < d → anim_elapsed ctx1 idx s e d (easing.getD EasingPtr.ease_linear) lp = 0 →
      evalEasing ext (easing.getD EasingPtr.ease_linear) 0 = 0 →
      (mu_anim_ex ext ctx id s e d easing lp).1 = s) ∧
    (lp = false → d ≤ anim_elapsed ctx1 idx s e d (easing.getD EasingPtr.ease_linear) lp →
      evalEasing ext (easing.getD EasingPtr.ease_linear) 1 = 1 →
      (mu_anim_ex ext ctx id s e d easing lp).1 = e ∧
      ((mu_anim_ex ext ctx id s e d easing lp).2.anim_states.getD idx
        zeroAnimState).finished = true) ∧
    (lp = true → d ≤ anim_elapsed ctx1 idx s e d (easing.getD EasingPtr.ease_linear) lp →
      evalEasing ext (easing.getD EasingPtr.ease_linear) 1 = 1 →
      (mu_anim_ex ext ctx id s e d easing lp).1 = e ∧
      ((mu_anim_ex ext ctx id s e d easing lp).2.anim_states.getD idx
        zeroAnimState).start_time_ms = ctx.curr_time_ms) := by
  obtain ⟨hidx, hcurr, hframe, hslen⟩ := get_anim_state_some ctx id true idx ctx1 hget
  have hcore := mu_anim_ex_core_spec ext ctx1 idx s e d
    (easing.getD EasingPtr.ease_linear) lp hlen
  have hmu : mu_anim_ex ext ctx id s e d easing lp =
      mu_anim_ex_core ext ctx1 idx s e d (easing.getD EasingPtr.ease_linear) lp := by
    unfold mu_anim_ex
    rw [hget]
  refine ⟨?_, ?_, ?_⟩
  · intro hdur hel hease0
    have ht : anim_t ctx1 idx s e d (easing.getD EasingPtr.ease_linear) lp = 0 := by
      unfold anim_t
      rw [hel, if_pos hdur]
      norm_num
    rw [hmu, hcore.1, ht]
    norm_num [hease0]
  · intro hlp hel hease1
    have ht := anim_t_at_end ctx1 idx s e d (easing.getD EasingPtr.ease_linear) lp hel
    constructor
    · rw [hmu, hcore.1, ht]
      norm_num [hease1]
    · rw [hmu, hcore.2.2.2, ht, if_pos ⟨le_refl 1, hlp⟩]
  · intro hlp hel hease1
    have ht := anim_t_at_end ctx1 idx s e d (easing.getD EasingPtr.ease_linear) lp hel
    constructor
    · rw [hmu, hcore.1, ht]
      norm_num [hease1]
    · rw [hmu, hcore.2.2.1, ht, if_pos ⟨le_refl 1, hlp⟩, hcurr]

/-- Witness for C5: in `ctxW` with id 5, a zero-duration non-looping
animation is immediately past its duration, so the call returns the end
value 3 and marks the animation finished. -/
theorem C5_witness :
    (mu_anim_ex (fun _ t => t) ctxW 5 1 3 0 none false).1 = 3 ∧
    ((mu_anim_ex (fun _ t => t) ctxW 5 1 3 0 none false).2.anim_states.getD 0
      zeroAnimState).finished = true :=
  ((C5_anim_endpoints (fun _ t => t) ctxW 5 1 3 0 none false 0 ctxW
    (by decide) (by decide)).2.1 rfl (by decide) rfl)

/-- C10: a `mu_anim` call with an easing enum value at or beyond
MU_EASE_MAX behaves exactly as a call with linear easing: the selected
function is `ease_linear` (the identity on t), and whenever a state
slot is available the returned value is start + (end - start) * t with
t the clamped progress. -/
theorem C10_easing_out_of_range (ext : EasingPtr → ℚ → ℚ) (ctx : mu_Context)
    (id : Nat) (s e : ℚ) (d : Nat) (easing : Nat) (lp : Bool)
    (hrange : MU_EASE_MAX ≤ easing) :
    mu_anim ext ctx id s e d easing lp =
      mu_anim_ex ext ctx id s e d (some EasingPtr.ease_linear) lp ∧
    (∀ t, evalEasing ext EasingPtr.ease_linear t = t) ∧
    (∀ idx ctx1, get_anim_state ctx id true = (some idx, ctx1) →
      idx < ctx1.anim_states.length →
      (mu_anim ext ctx id s e d easing lp).1 =
        s + (e - s) * anim_t ctx1 idx s e d EasingPtr.ease_linear lp) := by
  have hdispatch : mu_anim ext ctx id s e d easing lp =
      mu_anim_ex ext ctx id s e d (some EasingPtr.ease_linear) lp := by
    unfold mu_anim
    rw [if_neg (by rw [easing_funcs_length]; omega)]
  refine ⟨hdispatch, fun t => rfl, ?_⟩
  intro idx ctx1 hget hlen
  have hcore := mu_anim_ex_core_spec ext ctx1 idx s e d EasingPtr.ease_linear lp hlen
  have hmu : mu_anim_ex ext ctx id s e d (some EasingPtr.ease_linear) lp =
      mu_anim_ex_core ext ctx1 idx s e d EasingPtr.ease_linear lp := by
    unfold mu_anim_ex
    rw [hget]
    rfl
  rw [hdispatch, hmu, hcore.1, anim_t_clamped]
  rfl

/-- Witness for C10: easing value 14 = MU_EASE_MAX in `ctxW` with id 5
behaves as linear easing; with duration 0 the progress is 1 and the
call returns start + (end - start) * 1. -/
theorem C10_witness :
    mu_anim (fun _ t => t) ctxW 5 1 3 0 14 false =
      mu_anim_ex (fun _ t => t) ctxW 5 1 3 0 (some EasingPtr.ease_linear) false ∧
    (mu_anim (fun _ t => t) ctxW 5 1 3 0 14 false).1 =
      1 + (3 - 1) * anim_t ctxW 0 1 3 0 EasingPtr.ease_linear false := by
  have h := C10_easing_out_of_range (fun _ t => t) ctxW 5 1 3 0 14 false (by decide)
  exact ⟨h.1, h.2.2 0 ctxW (by decide) (by decide)⟩

/-- Context for the C6 counterexample: a full two-slot pool in which
both slots were touched in the current frame (frame 5). -/
def ctxC6 : mu_Context := ⟨5, 0, [⟨1, 5⟩, ⟨2, 5⟩], [zeroAnimState, zeroAnimState]⟩

/-- C6 counterexample: with every slot occupied by another id and
touched in the current frame, `get_anim_state` for the new id 3 does
not reclaim any slot (the scan starts at `oldest_frame = ctx->frame`
with a strict comparison, so no slot qualifies); the caller gets no
animation state and `mu_anim_ex` falls back to returning the bare end
value with the context unchanged — the eviction is not unconditional. -/
theorem C6_counterexample :
    get_anim_state ctxC6 3 true = (none, ctxC6) ∧
    mu_anim_ex (fun _ t => t) ctxC6 3 0 7 10 none false = (7, ctxC6) := by
  constructor
  · decide
  · decide

/-- C6 (amended): on a full pool (no free slot, id absent), when at
least one slot was last touched before the current frame the scan
reclaims a slot holding the minimum last-touched frame (claimed for the
new id, restamped to the current frame, its state zeroed) and the
caller receives a valid state; but when every slot was already touched
in the current frame no slot is reclaimed: the lookup fails and
`mu_anim_ex` returns the end value with the context unchanged. -/
theorem C6_pool_full_eviction (ctx : mu_Context) (id : Nat)
    (hnotfound : mu_pool_get ctx.anim_pool id = none)
    (hfull : ctx.anim_pool.findIdx? (fun it => it.id == 0) = none)
    (hlen : ctx.anim_pool.length = ctx.anim_states.length) :
    ((∃ i, i < ctx.anim_pool.length ∧
        (ctx.anim_pool.getD i freePoolItem).last_update < ctx.frame) →
      ∃ k, k < ctx.anim_pool.length ∧
        (get_anim_state ctx id true).1 = some k ∧
        (get_anim_state ctx id true).2.anim_pool.getD k freePoolItem =
          ⟨id, ctx.frame⟩ ∧
        (get_anim_state ctx id true).2.anim_states.getD k zeroAnimState =
          zeroAnimState ∧
        (ctx.anim_pool.getD k freePoolItem).last_update < ctx.frame ∧
        (∀ j, j < ctx.anim_pool.length →
          (ctx.anim_pool.getD k freePoolItem).last_update ≤
            (ctx.anim_pool.getD j freePoolItem).last_update)) ∧
    ((∀ i, i < ctx.anim_pool.length →
        ctx.frame ≤ (ctx.anim_pool.getD i freePoolItem).last_update) →
      get_anim_state ctx id true = (none, ctx) ∧
      ∀ (ext : EasingPtr → ℚ → ℚ) (s e : ℚ) (d : Nat) (easing : Option EasingPtr)
        (lp : Bool), mu_anim_ex ext ctx id s e d easing lp = (e, ctx)) := by
  obtain ⟨hacc, hmin, h3⟩ := oldest_scan_go_spec ctx.anim_pool 0 (none, ctx.frame)
  constructor
  · rintro ⟨i, hi, hlt⟩
    rcases h3 with h3 | ⟨k, hk, h3, hltacc⟩
    · exfalso
      have := hmin i hi
      rw [h3] at this
      exact absurd hlt (not_lt.mpr this)
    · have hget : get_anim_state ctx id true = (some k,
          { ctx with
            anim_pool := mu_pool_update ctx.frame
              (ctx.anim_pool.set k
                ⟨id, (ctx.anim_pool.getD k freePoolItem).last_update⟩) k,
            anim_states := ctx.anim_states.set k zeroAnimState }) := by
        unfold get_anim_state mu_pool_init oldest_scan
        rw [hnotfound, hfull]
        rw [show oldest_scan_go ctx.anim_pool 0 (none, ctx.frame) =
          (some k, (ctx.anim_pool.getD k freePoolItem).last_update) by
            rw [h3]; simp]
        rfl
      refine ⟨k, hk, ?_, ?_, ?_, by simpa using hltacc, ?_⟩
      · rw [hget]
      · rw [hget]
        simp only [mu_pool_update]
        rw [getD_set_self _ _ _ _ (by simpa using hk),
          getD_set_self _ _ _ _ hk]
      · rw [hget]
        simp only
        rw [getD_set_self _ _ _ _ (by omega)]
      · intro j hj
        have := hmin j hj
        rw [h3] at this
        simpa using this
  · intro hall
    rcases h3 with h3 | ⟨k, hk, h3, hltacc⟩
    · have hget : get_anim_state ctx id true = (none, ctx) := by
        unfold get_anim_state mu_pool_init oldest_scan
        rw [hnotfound, hfull, h3]
        rfl
      refine ⟨hget, ?_⟩
      intro ext s e d easing lp
      unfold mu_anim_ex
      rw [hget]
    · exfalso
      have := hall k hk
      simp only at hltacc
      exact absurd hltacc (not_lt.mpr this)

/-- Witness for C6: in a full two-slot pool where slot 0 was touched at
frame 3 and slot 1 at frame 4 (current frame 5), requesting the new
id 9 evicts slot 0, the oldest. -/
theorem C6_witness :
    (get_anim_state ⟨5, 0, [⟨1, 3⟩, ⟨2, 4⟩], [zeroAnimState, zeroAnimState]⟩ 9
      true).1 = some 0 ∧
    (get_anim_state ⟨5, 0, [⟨1, 3⟩, ⟨2, 4⟩], [zeroAnimState, zeroAnimState]⟩ 9
      true).2.anim_pool.getD 0 freePoolItem = ⟨9, 5⟩ := by
  obtain ⟨k, hk, h1, h2, h3, h4, h5⟩ :=
    (C6_pool_full_eviction ⟨5, 0, [⟨1, 3⟩, ⟨2, 4⟩], [zeroAnimState, zeroAnimState]⟩ 9
      (by decide) (by decide) (by decide)).1 ⟨0, by decide, by decide⟩
  have hk0 : k = 0 := by
    match k, hk with
    | 0, _ => rfl
    | 1, _ =>
      exfalso
      have := h5 0 (by decide)
      revert this
      decide
  subst hk0
  exact ⟨h1, h2⟩

/-! ## Per-tick input drain (`mu_handle_input_events`, input handling
with deferred button edges)

The message queue hand-off is modelled as a list of queued samples; the
calls into the Context (`mu_input_mousemove` / `mu_input_mousedown` /
`mu_input_mouseup`) are modelled as an ordered list of emitted actions,
since the claim is about which calls happen in which tick and in which
order. -/

/-- Queued input sample, from `struct microui_input`. -/
structure microui_input where
  x : Nat
  y : Nat
  mouse_button : Nat
  down : Bool
  up : Bool
deriving DecidableEq, Repr

/-- A call into the Context applied by the drain. -/
inductive InputAction where
  | mousemove (x y : Nat)
  | mousedown (x y btn : Nat)
  | mouseup (x y btn : Nat)
deriving DecidableEq, Repr

/-- Start-of-tick application of a button event deferred last frame,
from the `pending_input_valid` block of `mu_handle_input_events`;
also reports whether it counted as a handled event. -/
def pending_actions : Option microui_input → List InputAction × Bool
  | none => ([], false)
  | some p =>
    (if p.down then [InputAction.mousedown p.x p.y p.mouse_button]
      else if p.up then [InputAction.mouseup p.x p.y p.mouse_button]
      else [], true)

/-- Queue-drain loop of `mu_handle_input_events`: every drained sample
applies its mouse move immediately; a sample carrying a button edge is
stored as the new pending input and the loop breaks, leaving the rest
of the queue for the next tick.  Returns (actions, new pending,
remaining queue, events_handled). -/
def drain_loop :
    List microui_input → List InputAction × Option microui_input × List microui_input × Bool
  | [] => ([], none, [], false)
  | evt :: rest =>
    if evt.down || evt.up then
      ([InputAction.mousemove evt.x evt.y], some evt, rest, true)
    else
      let r := drain_loop rest
      (InputAction.mousemove evt.x evt.y :: r.1, r.2.1, r.2.2.1, true)

/-- Model of `mu_handle_input_events`: apply the deferred button event
first, then drain the queue. -/
def mu_handle_input_events (pending : Option microui_input)
    (queue : List microui_input) :
    List InputAction × Option microui_input × List microui_input × Bool :=
  let pa := pending_actions pending
  let r := drain_loop queue
  (pa.1 ++ r.1, r.2.1, r.2.2.1, pa.2 || r.2.2.2)

/-- A sample that carries no button edge. -/
def notEdge (evt : microui_input) : Bool := !(evt.down || evt.up)

/-- The Context call corresponding to a button edge sample. -/
def buttonAction (evt : microui_input) : InputAction :=
  if evt.down then InputAction.mousedown evt.x evt.y evt.mouse_button
  else InputAction.mouseup evt.x evt.y evt.mouse_button

/-- Behaviour of the drain loop, split on whether the queue contains a
button edge. -/
theorem drain_loop_spec (queue : List microui_input) :
    (queue.dropWhile notEdge = [] →
      drain_loop queue =
        (queue.map (fun evt => InputAction.mousemove evt.x evt.y), none, [],
          !queue.isEmpty)) ∧
    (∀ e rest2, queue.dropWhile notEdge = e :: rest2 →
      drain_loop queue =
        ((queue.takeWhile notEdge).map (fun evt => InputAction.mousemove evt.x evt.y)
          ++ [InputAction.mousemove e.x e.y], some e, rest2, true) ∧
      (e.down || e.up) = true) := by
  induction queue with
  | nil => exact ⟨fun _ => rfl, fun e rest2 h => by simp [List.dropWhile] at h⟩
  | cons evt rest ih =>
    by_cases hedge : (evt.down || evt.up) = true
    · have hne : notEdge evt = false := by simp [notEdge, hedge]
      constructor
      · intro h
        rw [List.dropWhile_cons, hne] at h
        simp at h
      · intro e rest2 h
        rw [List.dropWhile_cons, hne] at h
        simp only [Bool.false_eq_true, if_false, List.cons.injEq] at h
        obtain ⟨rfl, rfl⟩ := h
        rw [drain_loop, if_pos hedge]
        constructor
        · rw [List.takeWhile_cons, hne]
          rfl
        · exact hedge
    · have hne : notEdge evt = true := by simp [notEdge]; simpa using hedge
      constructor
      · intro h
        rw [List.dropWhile_cons, hne] at h
        simp only [if_true] at h
        rw [drain_loop, if_neg hedge, (ih.1 h)]
        simp
      · intro e rest2 h
        rw [List.dropWhile_cons, hne] at h
        simp only [if_true] at h
        obtain ⟨h1, h2⟩ := ih.2 e rest2 h
        rw [drain_loop, if_neg hedge, h1]
        refine ⟨?_, h2⟩
        rw [List.takeWhile_cons, hne]
        simp

/-- C7: every drained pointer-move sample is applied (as a mousemove)
in the tick that drains it; a sample carrying a button press/release
edge has its mouse position applied in that same tick, while its
press/release call is deferred — it is not applied this tick, becomes
the pending input, and is applied as the very first action of the next
tick's drain; the samples after it stay queued, so no press/release
edge is ever dropped. -/
theorem C7_input_move_now_edge_deferred (pending : Option microui_input)
    (queue : List microui_input) :
    (queue.dropWhile notEdge = [] →
      mu_handle_input_events pending queue =
        ((pending_actions pending).1 ++
          queue.map (fun evt => InputAction.mousemove evt.x evt.y), none, [],
          (pending_actions pending).2 || !queue.isEmpty)) ∧
    (∀ e rest2, queue.dropWhile notEdge = e :: rest2 →
      mu_handle_input_events pending queue =
        ((pending_actions pending).1 ++
          ((queue.takeWhile notEdge).map (fun evt => InputAction.mousemove evt.x evt.y)
            ++ [InputAction.mousemove e.x e.y]), some e, rest2,
          (pending_actions pending).2 || true) ∧
      (e.down || e.up) = true ∧
      (mu_handle_input_events (some e) rest2).1.head? = some (buttonAction e)) := by
  constructor
  · intro h
    unfold mu_handle_input_events
    rw [(drain_loop_spec queue).1 h]
  · intro e rest2 h
    obtain ⟨h1, h2⟩ := (drain_loop_spec queue).2 e rest2 h
    refine ⟨?_, h2, ?_⟩
    · unfold mu_handle_input_events
      rw [h1]
    · unfold mu_handle_input_events
      cases hd : e.down with
      | true =>
        simp [pending_actions, buttonAction, hd]
      | false =>
        have hu : e.up = true := by
          rw [hd] at h2
          simpa using h2
        simp [pending_actions, buttonAction, hd, hu]

/-- Witness for C7 on the queue [move (1,2), press at (3,4),
move (5,6)] with no pending input: the first two samples are drained
(two mousemoves, no button call), the press becomes pending with the
trailing move still queued, and the next tick's drain starts with the
mousedown at (3,4). -/
theorem C7_witness :
    mu_handle_input_events none
      [⟨1, 2, 0, false, false⟩, ⟨3, 4, 0, true, false⟩, ⟨5, 6, 0, false, false⟩] =
      ([InputAction.mousemove 1 2, InputAction.mousemove 3 4],
        some ⟨3, 4, 0, true, false⟩, [⟨5, 6, 0, false, false⟩], true) ∧
    (mu_handle_input_events (some ⟨3, 4, 0, true, false⟩)
      [⟨5, 6, 0, false, false⟩]).1.head? = some (InputAction.mousedown 3 4 0) := by
  have h := (C7_input_move_now_edge_deferred none
    [⟨1, 2, 0, false, false⟩, ⟨3, 4, 0, true, false⟩, ⟨5, 6, 0, false, false⟩]).2
    ⟨3, 4, 0, true, false⟩ [⟨5, 6, 0, false, false⟩] (by decide)
  exact ⟨h.1, h.2.2⟩

/-! ## Rasterizer primitives and `mu_render` (zmu.c)

The claims about the rasterizer concern which framebuffer coordinates
are written, so each primitive is modelled as the ordered list of
coordinates it stores to; pixel values and colors are dropped.  C `int`
division (truncation toward zero) is `Int.tdiv`.  The display size is
`W x H`; `clip_rect` is the rasterizer state threaded through
`mu_render`. -/

/-- Coordinates written by one `set_pixel` call (zmu.c): dropped
silently when outside the current clip rectangle. -/
def set_pixel_writes (clip : mu_Rect) (x y : Int) : List (Int × Int) :=
  if x < clip.x ∨ y < clip.y ∨ clip.x + clip.w ≤ x ∨ clip.y + clip.h ≤ y then []
  else [(x, y)]

/-- Loop of `renderer_draw_line` (zmu.c): Bresenham stepping with a
thickness box of `set_pixel` calls around each point.  Standard
Bresenham from p0 toward p1 takes at most dx + dy steps before the
endpoint test fires, so that fuel dominates the iteration count. -/
def renderer_draw_line_go (clip : mu_Rect) (p1x p1y sx sy dx dy : Int)
    (thickness : Nat) : Nat → Int → Int → Int → List (Int × Int)
  | 0, _, _, _ => []
  | fuel + 1, x, y, err =>
    let t2 := (thickness / 2 : Nat)
    let box := (List.range (2 * t2 + 1)).flatMap fun i =>
      (List.range (2 * t2 + 1)).flatMap fun j =>
        set_pixel_writes clip (x + (j : Int) - (t2 : Int)) (y + (i : Int) - (t2 : Int))
    box ++
      (if x = p1x ∧ y = p1y then []
        else
          let e2 := err * 2
          let err1 := if e2 > -dy then err - dy else err
          let x1 := if e2 > -dy then x + sx else x
          let err2 := if e2 < dx then err1 + dx else err1
          let y1 := if e2 < dx then y + sy else y
          renderer_draw_line_go clip p1x p1y sx sy dx dy thickness fuel x1 y1 err2)

/-- Model of `renderer_draw_line` (zmu.c). -/
def renderer_draw_line (clip : mu_Rect) (p0 p1 : Int × Int) (thickness : Nat) :
    List (Int × Int) :=
  let dx := |p1.1 - p0.1|
  let dy := |p1.2 - p0.2|
  let sx : Int := if p0.1 < p1.1 then 1 else -1
  let sy : Int := if p0.2 < p1.2 then 1 else -1
  renderer_draw_line_go clip p1.1 p1.2 sx sy dx dy thickness
    ((dx + dy).toNat + 1) p0.1 p0.2 (dx - dy)

/-- Model of `renderer_draw_icon` (zmu.c): each icon is a handful of
1-pixel-thick lines (MU_ICON_CLOSE = 1, CHECK = 2, COLLAPSED = 3,
EXPANDED = 4). -/
def renderer_draw_icon (clip : mu_Rect) (id : Nat) (r : mu_Rect) :
    List (Int × Int) :=
  match id with
  | 1 =>
    renderer_draw_line clip (r.x + Int.tdiv r.w 4, r.y + Int.tdiv r.h 4)
      (r.x + r.w - Int.tdiv r.w 4, r.y + r.h - Int.tdiv r.h 4) 1 ++
    renderer_draw_line clip (r.x + r.w - Int.tdiv r.w 4, r.y + Int.tdiv r.h 4)
      (r.x + Int.tdiv r.w 4, r.y + r.h - Int.tdiv r.h 4) 1
  | 3 =>
    renderer_draw_line clip (r.x + Int.tdiv r.w 3, r.y + Int.tdiv r.h 3)
      (r.x + r.w - Int.tdiv r.w 3, r.y + Int.tdiv r.h 2) 1 ++
    renderer_draw_line clip (r.x + r.w - Int.tdiv r.w 3, r.y + Int.tdiv r.h 2)
      (r.x + Int.tdiv r.w 3, r.y + r.h - Int.tdiv r.h 3) 1 ++
    renderer_draw_line clip (r.x + Int.tdiv r.w 3, r.y + r.h - Int.tdiv r.h 3)
      (r.x + Int.tdiv r.w 3, r.y + Int.tdiv r.h 3) 1
  | 4 =>
    renderer_draw_line clip (r.x + Int.tdiv r.w 3, r.y + Int.tdiv r.h 3)
      (r.x + r.w - Int.tdiv r.w 3, r.y + Int.tdiv r.h 3) 1 ++
    renderer_draw_line clip (r.x + r.w - Int.tdiv r.w 3, r.y + Int.tdiv r.h 3)
      (r.x + Int.tdiv r.w 2, r.y + r.h - Int.tdiv r.h 3) 1 ++
    renderer_draw_line clip (r.x + Int.tdiv r.w 2, r.y + r.h - Int.tdiv r.h 3)
      (r.x + Int.tdiv r.w 3, r.y + Int.tdiv r.h 3) 1
  | 2 =>
    renderer_draw_line clip (r.x + Int.tdiv r.w 4, r.y + Int.tdiv r.h 2)
      (r.x + Int.tdiv r.w 2, r.y + r.h - Int.tdiv r.h 4) 1 ++
    renderer_draw_line clip (r.x + Int.tdiv r.w 2, r.y + r.h - Int.tdiv r.h 4)
      (r.x + r.w - Int.tdiv r.w 5, r.y + Int.tdiv r.h 5) 1
  | _ => []

/-- Loop of `renderer_draw_circle` (zmu.c): midpoint stepping, two
horizontal spans of `set_pixel` calls per iteration.  `y` increments
every iteration and the loop runs while `x ≥ y` with `x ≤ radius`, so
radius + 2 dominates the iteration count. -/
def renderer_draw_circle_go (clip : mu_Rect) (cx cy : Int) :
    Nat → Int → Int → Int → List (Int × Int)
  | 0, _, _, _ => []
  | fuel + 1, x, y, err =>
    if y ≤ x then
      ((List.range (2 * x + 1).toNat).flatMap fun i =>
        set_pixel_writes clip (cx - x + i) (cy + y) ++
        set_pixel_writes clip (cx - x + i) (cy - y)) ++
      ((List.range (2 * y + 1).toNat).flatMap fun i =>
        set_pixel_writes clip (cx - y + i) (cy + x) ++
        set_pixel_writes clip (cx - y + i) (cy - x)) ++
      (let y1 := y + 1
        if err < 0 then
          renderer_draw_circle_go clip cx cy fuel x y1 (err + 2 * y1 + 1)
        else
          renderer_draw_circle_go clip cx cy fuel (x - 1) y1
            (err + 2 * (y1 - (x - 1) + 1)))
    else []

/-- Model of `renderer_draw_circle` (zmu.c). -/
def renderer_draw_circle (clip : mu_Rect) (center : Int × Int) (radius : Int) :
    List (Int × Int) :=
  renderer_draw_circle_go clip center.1 center.2 (radius.toNat + 2) radius 0 (1 - radius)

/-- Truncation of a rational to an int, as a C float-to-int cast. -/
def ratTrunc (q : ℚ) : Int := Int.tdiv q.num q.den

/-- Fast integer angle-ratio approximation from `arc_atan_ratio`
(zmu.c, CONFIG_MICROUI_ARC_ATAN_APPROXIMATION variant). -/
def arc_atan_ratio (x y : Int) : Int :=
  let val := Int.tdiv (x * 255) y
  Int.tdiv (val * (770195 - (val - 255) * (val + 941))) 6137491

/-- Inner Andres-circle loop of `renderer_draw_arc` (zmu.c) for one
radius `r`: while `y ≥ x`, up to eight `set_pixel` calls gated by the
angular-window tests, then the Andres step.  Each iteration decreases
`y - x` by at least one, so `r + 2` dominates the iteration count. -/
def renderer_draw_arc_go (clip : mu_Rect) (cx cy : Int) (a_start a_end : Int)
    (inverted full : Bool) (r : Int) :
    Nat → Int → Int → Int → List (Int × Int)
  | 0, _, _, _ => []
  | fuel + 1, x, y, d =>
    if x ≤ y then
      let ratio := arc_atan_ratio x y
      (if full || (xor (decide (a_start ≤ ratio) && decide (ratio < a_end)) inverted)
        then set_pixel_writes clip (cx + y) (cy + x) else []) ++
      (if full || (xor (decide (63 - a_end < ratio) && decide (ratio ≤ 63 - a_start)) inverted)
        then set_pixel_writes clip (cx + x) (cy + y) else []) ++
      (if full || (xor (decide (a_start - 64 ≤ ratio) && decide (ratio < a_end - 64)) inverted)
        then set_pixel_writes clip (cx - x) (cy + y) else []) ++
      (if full || (xor (decide (127 - a_end < ratio) && decide (ratio ≤ 127 - a_start)) inverted)
        then set_pixel_writes clip (cx - y) (cy + x) else []) ++
      (if full || (xor (decide (a_start - 128 ≤ ratio) && decide (ratio < a_end - 128)) inverted)
        then set_pixel_writes clip (cx - y) (cy - x) else []) ++
      (if full || (xor (decide (191 - a_end < ratio) && decide (ratio ≤ 191 - a_start)) inverted)
        then set_pixel_writes clip (cx - x) (cy - y) else []) ++
      (if full || (xor (decide (a_start - 192 ≤ ratio) && decide (ratio < a_end - 192)) inverted)
        then set_pixel_writes clip (cx + x) (cy - y) else []) ++
      (if full || (xor (decide (255 - a_end < ratio) && decide (ratio ≤ 255 - a_start)) inverted)
        then set_pixel_writes clip (cx + y) (cy - x) else []) ++
      (if d ≥ 2 * x then
        renderer_draw_arc_go clip cx cy a_start a_end inverted full r fuel
          (x + 1) y (d - 2 * x - 1)
      else if d < 2 * (r - y) then
        renderer_draw_arc_go clip cx cy a_start a_end inverted full r fuel
          x (y - 1) (d + 2 * y - 1)
      else
        renderer_draw_arc_go clip cx cy a_start a_end inverted full r fuel
          (x + 1) (y - 1) (d + 2 * (y - x - 1)))
    else []

/-- Model of `renderer_draw_arc` (zmu.c): angles are converted to the
8-bit unit (& 0xFF on an int is the nonnegative remainder mod 256),
swapped if inverted, and every radius between inner and outer is
traced. -/
def renderer_draw_arc (clip : mu_Rect) (center : Int × Int) (radius thickness : Int)
    (start_angle end_angle : ℚ) : List (Int × Int) :=
  let cx := center.1
  let cy := center.2
  let a_start := (ratTrunc (start_angle * 256 / 360)) % 256
  let a_end := (ratTrunc (end_angle * 256 / 360)) % 256
  let inner_radius := radius - Int.tdiv thickness 2
  let outer_radius := radius + Int.tdiv (thickness - 1) 2
  let inner_radius := if inner_radius < 0 then 0 else inner_radius
  let inverted := decide (a_start > a_end)
  let full := decide (a_start = a_end)
  let a_start2 := if inverted then a_end else a_start
  let a_end2 := if inverted then a_start else a_end
  (List.range (outer_radius - inner_radius + 1).toNat).flatMap fun k =>
    let r := inner_radius + k
    renderer_draw_arc_go clip cx cy a_start2 a_end2 inverted full r
      (r.toNat + 2) 0 r (r - 1)

/-- Coordinates written by `renderer_draw_rect` (zmu.c): the rectangle
is clamped to the display bounds only (the clip rectangle is not
consulted: microui is trusted to have pre-clipped rect commands), and
every pixel of the clamped rectangle is stored.  The mono, blending
and memcpy row-duplication paths of the source traverse exactly these
coordinates. -/
def renderer_draw_rect (W H : Int) (rect : mu_Rect) : List (Int × Int) :=
  let rect := intersect_rects rect (mu_rect 0 0 W H)
  if rect.w = 0 ∨ rect.h = 0 then []
  else
    (List.range rect.h.toNat).flatMap fun dy =>
      (List.range rect.w.toNat).map fun dx =>
        (rect.x + (dx : Int), rect.y + (dy : Int))

/-- Image descriptor, from `struct mu_ImageDescriptor` (image.h);
`data_null` models a NULL data pointer.  The stride, pixel format and
byte contents select among the mono, memcpy and per-pixel conversion
paths of `renderer_draw_image`, all of which traverse exactly the
pixels of the visible region, so they are not needed for the
coordinate trace. -/
structure mu_ImageDescriptor where
  width : Nat
  height : Nat
  data_null : Bool
deriving DecidableEq, Repr

/-- Coordinates written by `renderer_draw_image` (zmu.c): NULL or
degenerate images draw nothing; otherwise the image rectangle is
intersected with the display and the clip rectangle and every visible
pixel is stored. -/
def renderer_draw_image (W H : Int) (clip : mu_Rect) (pos : Int × Int)
    (img : Option mu_ImageDescriptor) : List (Int × Int) :=
  match img with
  | none => []
  | some img =>
    if img.data_null ∨ img.width = 0 ∨ img.height = 0 then []
    else
      let img_rect := mu_rect pos.1 pos.2 (img.width : Int) (img.height : Int)
      let display_rect := mu_rect 0 0 W H
      let visible := intersect_rects (intersect_rects img_rect display_rect) clip
      if visible.w = 0 ∨ visible.h = 0 then []
      else
        (List.range visible.h.toNat).flatMap fun row =>
          (List.range visible.w.toNat).map fun col =>
            (visible.x + (col : Int), visible.y + (row : Int))

/-- One scanline span of `renderer_draw_triangle` (zmu.c): the edge
intersections are ordered, clamped to the clip bounds, and filled. -/
def tri_span (clip : mu_Rect) (x_a x_b y : Int) : List (Int × Int) :=
  let x_a2 := if x_a > x_b then x_b else x_a
  let x_b2 := if x_a > x_b then x_a else x_b
  let x_a3 := max x_a2 clip.x
  let x_b3 := min x_b2 (clip.x + clip.w - 1)
  (List.range (x_b3 - x_a3 + 1).toNat).map fun k2 => (x_a3 + (k2 : Int), y)

/-- Scanline body of `renderer_draw_triangle` (zmu.c) after the
vertices have been sorted by y (`p0.2 ≤ p1.2 ≤ p2.2` in the source):
early reject outside the clip bounds, degenerate flat triangle as a
single span, otherwise fixed-point edge interpolation per scanline. -/
def tri_raster (clip : mu_Rect) (p0 p1 p2 : Int × Int) : List (Int × Int) :=
  let clip_x_min := clip.x
  let clip_x_max := clip.x + clip.w - 1
  let clip_y_min := clip.y
  let clip_y_max := clip.y + clip.h - 1
  let tri_y_min := p0.2
  let tri_y_max := p2.2
  let tri_x_min := min p0.1 (min p1.1 p2.1)
  let tri_x_max := max p0.1 (max p1.1 p2.1)
  if tri_y_max < clip_y_min ∨ tri_y_min > clip_y_max ∨ tri_x_max < clip_x_min ∨
      tri_x_min > clip_x_max then []
  else if p0.2 = p2.2 then
    if p0.2 < clip_y_min ∨ p0.2 > clip_y_max then []
    else
      let min_x := max tri_x_min clip_x_min
      let max_x := min tri_x_max clip_x_max
      (List.range (max_x - min_x + 1).toNat).map fun k => (min_x + (k : Int), p0.2)
  else
    let y_start := max p0.2 clip_y_min
    let y_end := min p2.2 clip_y_max
    let total_height := p2.2 - p0.2
    (List.range (y_end - y_start + 1).toNat).flatMap fun k =>
      let y := y_start + (k : Int)
      let second_half := (p1.2 < y) ∨ (p1.2 = p0.2)
      let segment_height := if second_half then p2.2 - p1.2 else p1.2 - p0.2
      let segment_height := if segment_height = 0 then 1 else segment_height
      let alpha := Int.tdiv ((y - p0.2) * 256) total_height
      let beta := if second_half then Int.tdiv ((y - p1.2) * 256) segment_height
        else Int.tdiv ((y - p0.2) * 256) segment_height
      let x_a := p0.1 + Int.tdiv ((p2.1 - p0.1) * alpha) 256
      let x_b := if second_half then p1.1 + Int.tdiv ((p2.1 - p1.1) * beta) 256
        else p0.1 + Int.tdiv ((p1.1 - p0.1) * beta) 256
      tri_span clip x_a x_b y

/-- Coordinates written by `renderer_draw_triangle` (zmu.c): vertices
sorted by y with three conditional swaps, then scanline fill with
fixed-point edge interpolation, every span clamped to the clip bounds
before storing. -/
def renderer_draw_triangle (clip : mu_Rect) (q0 q1 q2 : Int × Int) :
    List (Int × Int) :=
  let p0 := if q0.2 > q1.2 then q1 else q0
  let p1 := if q0.2 > q1.2 then q0 else q1
  let p1x := if p1.2 > q2.2 then q2 else p1
  let p2 := if p1.2 > q2.2 then p1 else q2
  let p0f := if p0.2 > p1x.2 then p1x else p0
  let p1f := if p0.2 > p1x.2 then p0 else p1x
  tri_raster clip p0f p1f p2

/-- Model of `renderer_set_clip_rect` (zmu.c): the new clip state is
the requested rectangle intersected with the screen. -/
def renderer_set_clip_rect (W H : Int) (rect : mu_Rect) : mu_Rect :=
  intersect_rects rect (mu_rect 0 0 W H)

/-- Draw-command stream entry, from the `mu_Command` union (microui.h);
color fields are dropped since only written coordinates are traced.
Jump commands are resolved by `mu_next_command` (modelled from the
spec, section 4.5: iteration yields the draw/clip commands in replay
order), so the stream is the already-resolved replay sequence. -/
inductive mu_Command where
  | rect (rect : mu_Rect)
  | text (font : mu_FontDescriptor) (str : List Nat) (pos : Int × Int)
  | icon (id : Nat) (rect : mu_Rect)
  | clip (rect : mu_Rect)
  | arc (center : Int × Int) (radius thickness : Int) (start_angle end_angle : ℚ)
  | circle (center : Int × Int) (radius : Int)
  | line (p0 p1 : Int × Int) (thickness : Nat)
  | image (pos : Int × Int) (img : Option mu_ImageDescriptor)
  | triangle (p0 p1 p2 : Int × Int)

/-- Coordinates written when replaying one command against the current
clip state, from the switch in `mu_render` (zmu.c). -/
def command_writes (W H : Int) (clip : mu_Rect) : mu_Command → List (Int × Int)
  | .text font str pos => (renderer_draw_text W H clip font str pos).1
  | .rect r => renderer_draw_rect W H r
  | .icon id r => renderer_draw_icon clip id r
  | .clip _ => []
  | .arc c r t sa ea => renderer_draw_arc clip c r t sa ea
  | .circle c r => renderer_draw_circle clip c r
  | .line p0 p1 t => renderer_draw_line clip p0 p1 t
  | .image pos img => renderer_draw_image W H clip pos img
  | .triangle p0 p1 p2 => renderer_draw_triangle clip p0 p1 p2

/-- Clip-state update of the `mu_render` replay loop (zmu.c): a clip
command installs `renderer_set_clip_rect` of its rectangle; every other
command leaves the clip state unchanged. -/
def next_clip (W H : Int) (clip : mu_Rect) : mu_Command → mu_Rect
  | .clip r => renderer_set_clip_rect W H r
  | _ => clip

/-- Replay loop of `mu_render` (zmu.c): walks the command stream once,
a clip command replacing the clip state for the following commands. -/
def mu_render (W H : Int) : mu_Rect → List mu_Command → List (Int × Int)
  | _, [] => []
  | clip, c :: rest =>
    command_writes W H clip c ++ mu_render W H (next_clip W H clip c) rest

/-! ## Clip containment of the rasterizer primitives -/

theorem set_pixel_writes_subset (clip : mu_Rect) (x y : Int) :
    ∀ p ∈ set_pixel_writes clip x y, inRect clip p.1 p.2 := by
  intro p hp
  unfold set_pixel_writes at hp
  split_ifs at hp with h
  · simp at hp
  · push_neg at h
    simp only [List.mem_singleton] at hp
    subst hp
    exact ⟨by omega, by omega, by omega, by omega⟩

theorem two_pow_sub_one_shiftRight (w s : Nat) :
    ((2 ^ w - 1) >>> s) = 2 ^ (w - s) - 1 := by
  rw [Nat.shiftRight_eq_div_pow]
  by_cases h : s ≤ w
  · have hw : (2 : Nat) ^ w = 2 ^ (w - s) * 2 ^ s := by
      rw [← pow_add]
      congr 1
      omega
    rw [hw]
    have h1 : 0 < (2 : Nat) ^ s := pow_pos (by norm_num) _
    have h2 : 0 < (2 : Nat) ^ (w - s) := pow_pos (by norm_num) _
    apply Nat.div_eq_of_lt_le
    · have h3 := Nat.sub_mul (2 ^ (w - s)) 1 (2 ^ s)
      have h5 : 2 ^ s ≤ 2 ^ (w - s) * 2 ^ s := Nat.le_mul_of_pos_left _ h2
      omega
    · have h3 : (2 ^ (w - s) - 1) + 1 = 2 ^ (w - s) := by omega
      rw [h3]
      have h4 : 0 < 2 ^ (w - s) * 2 ^ s := Nat.mul_pos h2 h1
      omega
  · have h1 : (2 : Nat) ^ w ≤ 2 ^ s := pow_le_pow_right (by norm_num) (by omega)
    have h2 : 0 < (2 : Nat) ^ w := pow_pos (by norm_num) _
    rw [Nat.div_eq_of_lt (by omega)]
    have hws : w - s = 0 := by omega
    rw [hws]
    simp

/-- Bit loop of the glyph row: with the row value below `2 ^ (w - s)`
(enforced by the right-shifted mask) and its bits below `w - e` cleared
(enforced by the left-shifted mask), every emitted column lies in
[s, e). -/
theorem glyph_row_cols_bounds (w s e : Nat) :
    ∀ fuel v, v < 2 ^ (w - s) → v &&& (2 ^ (w - e) - 1) = 0 →
      ∀ col ∈ glyph_row_cols w fuel v, s ≤ col ∧ col < e := by
  intro fuel
  induction fuel with
  | zero =>
    intro v _ _ col hcol
    simp [glyph_row_cols] at hcol
  | succ fuel ih =>
    intro v hv hlow col hcol
    rw [glyph_row_cols] at hcol
    by_cases hv0 : v = 0
    · rw [if_pos hv0] at hcol
      simp at hcol
    · rw [if_neg hv0] at hcol
      have hvW : v < 2 ^ w :=
        lt_of_lt_of_le hv (pow_le_pow_right (by norm_num) (by omega))
      simp only [List.mem_cons] at hcol
      rcases hcol with rfl | hcol
      · rw [log2f_eq w v hvW]
        have h1 : Nat.log2 v < w - s := (Nat.log2_lt hv0).2 hv
        have h3 : Nat.log2 v < w := (Nat.log2_lt hv0).2 hvW
        have h2 : w - e ≤ Nat.log2 v := by
          rcases Nat.eq_zero_or_pos (w - e) with hwe | hwe
          · omega
          · apply (Nat.le_log2 hv0).2
            have hmod : v % 2 ^ (w - e) = 0 := by
              rw [← Nat.and_pow_two_sub_one_eq_mod]
              exact hlow
            exact Nat.le_of_dvd (by omega) (Nat.dvd_of_mod_eq_zero hmod)
        omega
      · apply ih _ (lt_of_le_of_lt Nat.and_le_left hv) _ _ hcol
        calc v &&& ((2 ^ w - 1) ^^^ (2 ^ (w - 1) >>> (w - 1 - log2f w v))) &&&
              (2 ^ (w - e) - 1)
            = v &&& (((2 ^ w - 1) ^^^ (2 ^ (w - 1) >>> (w - 1 - log2f w v))) &&&
              (2 ^ (w - e) - 1)) := Nat.land_assoc _ _ _
          _ = v &&& ((2 ^ (w - e) - 1) &&&
              ((2 ^ w - 1) ^^^ (2 ^ (w - 1) >>> (w - 1 - log2f w v)))) := by
              rw [Nat.land_comm ((2 ^ w - 1) ^^^ (2 ^ (w - 1) >>> (w - 1 - log2f w v)))]
          _ = (v &&& (2 ^ (w - e) - 1)) &&&
              ((2 ^ w - 1) ^^^ (2 ^ (w - 1) >>> (w - 1 - log2f w v))) :=
              (Nat.land_assoc _ _ _).symm
          _ = 0 &&& ((2 ^ w - 1) ^^^ (2 ^ (w - 1) >>> (w - 1 - log2f w v))) := by
              rw [hlow]
          _ = 0 := Nat.zero_and _

theorem le_intersect_x1 (r1 r2 : mu_Rect) : r1.x ≤ (intersect_rects r1 r2).x :=
  le_max_left _ _

theorem le_intersect_y1 (r1 r2 : mu_Rect) : r1.y ≤ (intersect_rects r1 r2).y :=
  le_max_left _ _

theorem shiftLeft_and_low (a k : Nat) : (a <<< k) &&& (2 ^ k - 1) = 0 := by
  rw [Nat.and_pow_two_sub_one_eq_mod, Nat.shiftLeft_eq, Nat.mul_mod_left]

/-- Every coordinate written by `draw_glyph` lies inside the clip
rectangle and the screen: the visible region is the glyph rectangle
intersected with both, and the row masks confine the emitted columns
to the visible column range. -/
theorem draw_glyph_subset (W H : Int) (clip : mu_Rect) (glyph : mu_FontGlyph)
    (x y : Int) (font : mu_FontDescriptor) :
    ∀ p ∈ draw_glyph W H clip glyph x y font,
      inRect clip p.1 p.2 ∧ inRect (mu_rect 0 0 W H) p.1 p.2 := by
  intro p hp
  rw [draw_glyph] at hp
  split_ifs at hp with hvis
  · simp at hp
  · simp only [List.mem_flatMap, List.mem_range, List.mem_map] at hp
    obtain ⟨i, hi, col, hcol, hpe⟩ := hp
    set vis := intersect_rects (intersect_rects (mu_rect x y (glyph.width : Int)
      (font.height : Int)) (mu_rect 0 0 W H)) clip with hvisdef
    set sc := (vis.x - x).toNat with hsc
    set ec := (vis.x + vis.w - x).toNat with hec
    set sr := (vis.y - y).toNat with hsr
    set er := (vis.y + vis.h - y).toNat with her
    set wb := (glyph_row_data font glyph (sr + i)).1 with hwb
    set raw := (glyph_row_data font glyph (sr + i)).2 with hraw
    have hm1 : (raw &&& ((2 ^ wb - 1) >>> sc)) &&&
        ((2 ^ wb - 1) <<< (wb - ec)) < 2 ^ (wb - sc) := by
      refine lt_of_le_of_lt (le_trans Nat.and_le_left Nat.and_le_right) ?_
      rw [two_pow_sub_one_shiftRight]
      have h2 : 0 < (2 : Nat) ^ (wb - sc) := pow_pos (by norm_num) _
      omega
    have hm2 : ((raw &&& ((2 ^ wb - 1) >>> sc)) &&&
        ((2 ^ wb - 1) <<< (wb - ec))) &&& (2 ^ (wb - ec) - 1) = 0 := by
      rw [Nat.land_assoc, shiftLeft_and_low, Nat.and_zero]
    simp only [List.pure_def, List.bind_eq_flatMap, List.mem_flatMap,
      List.mem_singleton] at hcol
    obtain ⟨c0, hc0, hc0e⟩ := hcol
    subst hc0e
    have hcb := glyph_row_cols_bounds wb sc ec wb _ hm1 hm2 c0 hc0
    have hxv : x ≤ vis.x := by
      rw [hvisdef]
      exact le_trans (le_intersect_x1 (mu_rect x y (glyph.width : Int)
        (font.height : Int)) (mu_rect 0 0 W H)) (le_intersect_x1 _ clip)
    have hyv : y ≤ vis.y := by
      rw [hvisdef]
      exact le_trans (le_intersect_y1 (mu_rect x y (glyph.width : Int)
        (font.height : Int)) (mu_rect 0 0 W H)) (le_intersect_y1 _ clip)
    have hinvis : inRect vis p.1 p.2 := by
      rw [← hpe]
      exact ⟨by omega, by omega, by omega, by omega⟩
    rw [hvisdef, inRect_intersect, inRect_intersect] at hinvis
    exact ⟨hinvis.2, hinvis.1.2⟩

/-- Every coordinate written by the `renderer_draw_text` loop lies
inside the clip rectangle and the screen: each glyph write goes through
`draw_glyph`, whose visible region is intersected with both. -/
theorem renderer_draw_text_go_subset (W H : Int) (clip : mu_Rect)
    (font : mu_FontDescriptor) (text : List Nat) (y : Int) :
    ∀ fuel pos x, ∀ p ∈ (renderer_draw_text_go W H clip font text y fuel pos x).1,
      inRect clip p.1 p.2 ∧ inRect (mu_rect 0 0 W H) p.1 p.2 := by
  intro fuel
  induction fuel with
  | zero =>
    intro pos x p hp
    simp [renderer_draw_text_go] at hp
  | succ fuel ih =>
    intro pos x p hp
    rw [renderer_draw_text_go] at hp
    by_cases hb : byteAt text pos = 0
    · rw [if_pos hb] at hp
      simp at hp
    · rw [if_neg hb] at hp
      by_cases hd : (next_utf8_codepoint fun j => byteAt text (pos + j)).2 = 0
      · rw [if_pos hd] at hp
        simp at hp
      · rw [if_neg hd] at hp
        cases hg : find_glyph font
            (next_utf8_codepoint fun j => byteAt text (pos + j)).1 with
        | none =>
          rw [hg] at hp
          exact ih _ _ p hp
        | some glyph =>
          rw [hg] at hp
          simp only [List.mem_append] at hp
          rcases hp with h | h
          · exact draw_glyph_subset _ _ _ _ _ _ _ p h
          · exact ih _ _ p h

/-- Every coordinate written by the `renderer_draw_line` loop lies
inside the clip rectangle: every store goes through `set_pixel`. -/
theorem renderer_draw_line_go_subset (clip : mu_Rect) (p1x p1y sx sy dx dy : Int)
    (t : Nat) :
    ∀ fuel x y err, ∀ p ∈ renderer_draw_line_go clip p1x p1y sx sy dx dy t fuel x y err,
      inRect clip p.1 p.2 := by
  intro fuel
  induction fuel with
  | zero =>
    intro x y err p hp
    simp [renderer_draw_line_go] at hp
  | succ fuel ih =>
    intro x y err p hp
    simp only [renderer_draw_line_go, List.mem_append, List.mem_flatMap,
      List.mem_range] at hp
    rcases hp with ⟨i, _, j, _, hw⟩ | hp
    · exact set_pixel_writes_subset _ _ _ p hw
    · split at hp
      · simp at hp
      · exact ih _ _ _ p hp

/-- Containment for `renderer_draw_line`. -/
theorem renderer_draw_line_subset (clip : mu_Rect) (p0 p1 : Int × Int) (t : Nat) :
    ∀ p ∈ renderer_draw_line clip p0 p1 t, inRect clip p.1 p.2 := by
  intro p hp
  rw [renderer_draw_line] at hp
  exact renderer_draw_line_go_subset _ _ _ _ _ _ _ _ _ _ _ _ p hp

/-- Containment for `renderer_draw_icon`: every icon is drawn with
`renderer_draw_line`. -/
theorem renderer_draw_icon_subset (clip : mu_Rect) (id : Nat) (r : mu_Rect) :
    ∀ p ∈ renderer_draw_icon clip id r, inRect clip p.1 p.2 := by
  intro p hp
  unfold renderer_draw_icon at hp
  split at hp
  · simp only [List.mem_append, or_assoc] at hp
    rcases hp with h | h <;> exact renderer_draw_line_subset _ _ _ _ p h
  · simp only [List.mem_append, or_assoc] at hp
    rcases hp with h | h | h <;> exact renderer_draw_line_subset _ _ _ _ p h
  · simp only [List.mem_append, or_assoc] at hp
    rcases hp with h | h | h <;> exact renderer_draw_line_subset _ _ _ _ p h
  · simp only [List.mem_append, or_assoc] at hp
    rcases hp with h | h <;> exact renderer_draw_line_subset _ _ _ _ p h
  · simp at hp

/-- Containment for the `renderer_draw_circle` loop: every store goes
through `set_pixel`. -/
theorem renderer_draw_circle_go_subset (clip : mu_Rect) (cx cy : Int) :
    ∀ fuel x y err, ∀ p ∈ renderer_draw_circle_go clip cx cy fuel x y err,
      inRect clip p.1 p.2 := by
  intro fuel
  induction fuel with
  | zero =>
    intro x y err p hp
    simp [renderer_draw_circle_go] at hp
  | succ fuel ih =>
    intro x y err p hp
    rw [renderer_draw_circle_go] at hp
    split at hp
    · simp only [List.mem_append, or_assoc, List.mem_flatMap, List.mem_range] at hp
      rcases hp with ⟨i, _, hw | hw⟩ | ⟨i, _, hw | hw⟩ | hp
      case _ => exact set_pixel_writes_subset _ _ _ p hw
      case _ => exact set_pixel_writes_subset _ _ _ p hw
      case _ => exact set_pixel_writes_subset _ _ _ p hw
      case _ => exact set_pixel_writes_subset _ _ _ p hw
      · split at hp
        · exact ih _ _ _ p hp
        · exact ih _ _ _ p hp
    · simp at hp

/-- Containment for `renderer_draw_circle`. -/
theorem renderer_draw_circle_subset (clip : mu_Rect) (c : Int × Int) (radius : Int) :
    ∀ p ∈ renderer_draw_circle clip c radius, inRect clip p.1 p.2 := by
  intro p hp
  rw [renderer_draw_circle] at hp
  exact renderer_draw_circle_go_subset _ _ _ _ _ _ _ p hp

/-- Containment for the `renderer_draw_arc` inner loop: each of the
eight gated octant stores goes through `set_pixel`. -/
theorem renderer_draw_arc_go_subset (clip : mu_Rect) (cx cy a_start a_end : Int)
    (inverted full : Bool) (r : Int) :
    ∀ fuel x y d, ∀ p ∈ renderer_draw_arc_go clip cx cy a_start a_end inverted full r fuel x y d,
      inRect clip p.1 p.2 := by
  intro fuel
  induction fuel with
  | zero =>
    intro x y d p hp
    simp [renderer_draw_arc_go] at hp
  | succ fuel ih =>
    intro x y d p hp
    rw [renderer_draw_arc_go] at hp
    split at hp
    · simp only [List.mem_append, or_assoc] at hp
      rcases hp with h | h | h | h | h | h | h | h | h
      all_goals
        first
          | (split at h
             · exact set_pixel_writes_subset _ _ _ p h
             · simp at h)
          | (split at h
             · exact ih _ _ _ p h
             · split at h
               · exact ih _ _ _ p h
               · exact ih _ _ _ p h)
    · simp at hp

/-- Containment for `renderer_draw_arc`. -/
theorem renderer_draw_arc_subset (clip : mu_Rect) (c : Int × Int)
    (radius thickness : Int) (sa ea : ℚ) :
    ∀ p ∈ renderer_draw_arc clip c radius thickness sa ea, inRect clip p.1 p.2 := by
  intro p hp
  simp only [renderer_draw_arc, List.mem_flatMap, List.mem_range] at hp
  obtain ⟨k, _, h⟩ := hp
  exact renderer_draw_arc_go_subset _ _ _ _ _ _ _ _ _ _ _ _ p h

/-- A clamped scanline span stays within the clip columns; its row must
be within the clip rows. -/
theorem tri_span_subset (clip : mu_Rect) (x_a x_b y : Int)
    (hy : clip.y ≤ y ∧ y < clip.y + clip.h) :
    ∀ p ∈ tri_span clip x_a x_b y, inRect clip p.1 p.2 := by
  intro p hp
  simp only [tri_span, List.mem_map, List.mem_range] at hp
  obtain ⟨k, hk, he⟩ := hp
  simp only [List.pure_def, List.bind_eq_flatMap, List.mem_flatMap,
    List.mem_singleton, List.mem_range] at hk
  obtain ⟨k0, hk0, hke⟩ := hk
  subst hke
  rw [← he]
  simp only [max_def, min_def] at hk0 ⊢
  refine ⟨?_, ?_, ?_, ?_⟩ <;> (split_ifs at hk0 ⊢ <;> omega)

/-- Containment for the sorted-vertex scanline fill of
`renderer_draw_triangle`: every span is clamped to the clip bounds. -/
theorem tri_raster_subset (clip : mu_Rect) (p0 p1 p2 : Int × Int) :
    ∀ p ∈ tri_raster clip p0 p1 p2, inRect clip p.1 p.2 := by
  intro p hp
  rw [tri_raster] at hp
  split at hp
  · simp at hp
  · split at hp
    · split at hp
      · simp at hp
      · simp only [List.mem_map, List.mem_range] at hp
        obtain ⟨k, hk, he⟩ := hp
        simp only [List.pure_def, List.bind_eq_flatMap, List.mem_flatMap,
          List.mem_singleton, List.mem_range] at hk
        obtain ⟨k0, hk0, hke⟩ := hk
        subst hke
        rw [← he]
        simp only [max_def, min_def] at hk0 ⊢
        refine ⟨?_, ?_, ?_, ?_⟩ <;> (split_ifs at hk0 ⊢ <;> omega)
    · simp only [List.mem_flatMap, List.mem_range] at hp
      obtain ⟨k, hk, hsp⟩ := hp
      exact tri_span_subset clip _ _ _ ⟨by omega, by omega⟩ p hsp

/-- Containment for `renderer_draw_triangle`. -/
theorem renderer_draw_triangle_subset (clip : mu_Rect) (q0 q1 q2 : Int × Int) :
    ∀ p ∈ renderer_draw_triangle clip q0 q1 q2, inRect clip p.1 p.2 := by
  intro p hp
  rw [renderer_draw_triangle] at hp
  exact tri_raster_subset _ _ _ _ p hp

/-- A point of the pixel grid spanned by a rectangle lies in it. -/
theorem mem_grid_inRect (v : mu_Rect) (row col : Nat) (hr : row < v.h.toNat)
    (hc : col < v.w.toNat) : inRect v (v.x + (col : Int)) (v.y + (row : Int)) :=
  ⟨by omega, by omega, by omega, by omega⟩

/-- Containment for `renderer_draw_image`: the visible region is the
image rectangle intersected with the display and the clip rectangle. -/
theorem renderer_draw_image_subset (W H : Int) (clip : mu_Rect) (pos : Int × Int)
    (img : Option mu_ImageDescriptor) :
    ∀ p ∈ renderer_draw_image W H clip pos img,
      inRect clip p.1 p.2 ∧ inRect (mu_rect 0 0 W H) p.1 p.2 := by
  intro p hp
  cases img with
  | none => simp [renderer_draw_image] at hp
  | some img =>
    simp only [renderer_draw_image] at hp
    split at hp
    · simp at hp
    · split at hp
      · simp at hp
      · simp only [List.mem_flatMap, List.mem_range, List.mem_map] at hp
        obtain ⟨row, hrow, col, hcol, he⟩ := hp
        simp only [List.pure_def, List.bind_eq_flatMap, List.mem_flatMap,
          List.mem_singleton, List.mem_range] at hcol
        obtain ⟨c0, hc0, hce⟩ := hcol
        subst hce
        rw [← he]
        have h := inRect_intersect.mp (mem_grid_inRect _ row c0 hrow hc0)
        exact ⟨h.2, (inRect_intersect.mp h.1).2⟩

/-- Containment for `renderer_draw_rect`: the rectangle is clamped to
the display bounds (not the clip rectangle) before storing. -/
theorem renderer_draw_rect_subset (W H : Int) (r : mu_Rect) :
    ∀ p ∈ renderer_draw_rect W H r, inRect (mu_rect 0 0 W H) p.1 p.2 := by
  intro p hp
  simp only [renderer_draw_rect] at hp
  split_ifs at hp with hne
  · simp at hp
  · simp only [List.mem_flatMap, List.mem_range, List.mem_map] at hp
    obtain ⟨dy, hdy, dx, hdx, he⟩ := hp
    simp only [List.pure_def, List.bind_eq_flatMap, List.mem_flatMap,
      List.mem_singleton, List.mem_range] at hdx
    obtain ⟨d0, hd0, hde⟩ := hdx
    subst hde
    rw [← he]
    have h := mem_grid_inRect (intersect_rects r (mu_rect 0 0 W H)) dy d0 hdy hd0
    exact (inRect_intersect.mp h).2

/-- The pixel set spanned by rectangle `a` is contained in that of `b`:
either `a` is empty or its bounds nest inside those of `b`. -/
def rect_inside (a b : mu_Rect) : Prop :=
  a.w ≤ 0 ∨ a.h ≤ 0 ∨
    (b.x ≤ a.x ∧ b.y ≤ a.y ∧ a.x + a.w ≤ b.x + b.w ∧ a.y + a.h ≤ b.y + b.h)

instance (a b : mu_Rect) : Decidable (rect_inside a b) := by
  unfold rect_inside; infer_instance

theorem rect_inside_mono {a b : mu_Rect} (h : rect_inside a b) {px py : Int}
    (hin : inRect a px py) : inRect b px py := by
  unfold rect_inside at h
  unfold inRect at hin ⊢
  omega

/-- The clip state installed by `renderer_set_clip_rect` is always
contained in the screen. -/
theorem set_clip_rect_inside (W H : Int) (r : mu_Rect) :
    rect_inside (renderer_set_clip_rect W H r) (mu_rect 0 0 W H) := by
  simp only [renderer_set_clip_rect, intersect_rects, mu_rect, rect_inside,
    max_def, min_def]
  split_ifs <;> omega

/-- C2 counterexample: `renderer_draw_rect` does not consult the clip
rectangle (it clamps to the display bounds only), so a rect command
writes pixels outside the active clip rectangle: with clip 1x1 at the
origin, a 2x2 rect write stores (1,1), which is outside the clip. -/
theorem C2_counterexample :
    rect_inside (mu_rect 0 0 1 1) (mu_rect 0 0 4 4) ∧
    (1, 1) ∈ mu_render 4 4 (mu_rect 0 0 1 1) [mu_Command.rect (mu_rect 0 0 2 2)] ∧
    ¬ inRect (mu_rect 0 0 1 1) 1 1 := by decide

/-- C2 (amended): clip containment holds for every primitive except
rect.  (1) Whenever the initial clip state is contained in the screen,
every pixel written while replaying a command stream through
`mu_render` lies within the screen bounds — rect commands are clamped
to the display only, the other primitives to the clip rectangle, and
every installed clip state stays within the screen.  (2) For every
command other than a rect command, each written pixel lies inside both
the active clip rectangle and the screen; out-of-clip stores are
silently dropped and never surface an error. -/
theorem C2_clip_containment (W H : Int) :
    (∀ clip cmds, rect_inside clip (mu_rect 0 0 W H) →
      ∀ p ∈ mu_render W H clip cmds, inRect (mu_rect 0 0 W H) p.1 p.2) ∧
    (∀ clip c, (∀ r, c ≠ mu_Command.rect r) →
      rect_inside clip (mu_rect 0 0 W H) →
      ∀ p ∈ command_writes W H clip c,
        inRect clip p.1 p.2 ∧ inRect (mu_rect 0 0 W H) p.1 p.2) := by
  constructor
  · intro clip cmds
    induction cmds generalizing clip with
    | nil =>
      intro _ p hp
      simp [mu_render] at hp
    | cons c rest ih =>
      intro hclip p hp
      rw [mu_render] at hp
      rcases List.mem_append.mp hp with h | h
      · cases c with
        | rect r => exact renderer_draw_rect_subset W H r p h
        | clip r => simp [command_writes] at h
        | text font str pos =>
          exact (renderer_draw_text_go_subset W H clip font str pos.2 _ _ _ p h).2
        | icon id r =>
          exact rect_inside_mono hclip (renderer_draw_icon_subset _ _ _ p h)
        | arc cc rr tt sa ea =>
          exact rect_inside_mono hclip (renderer_draw_arc_subset _ _ _ _ _ _ p h)
        | circle cc rr =>
          exact rect_inside_mono hclip (renderer_draw_circle_subset _ _ _ p h)
        | line a b t =>
          exact rect_inside_mono hclip (renderer_draw_line_subset _ _ _ _ p h)
        | image pos img =>
          exact (renderer_draw_image_subset _ _ _ _ _ p h).2
        | triangle a b cc =>
          exact rect_inside_mono hclip (renderer_draw_triangle_subset _ _ _ _ p h)
      · cases c
        all_goals
          first
            | exact ih _ (set_clip_rect_inside W H _) p h
            | exact ih _ hclip p h
  · intro clip c hc hclip p hp
    cases c with
    | rect r => exact absurd rfl (hc r)
    | clip r => simp [command_writes] at hp
    | text font str pos =>
      exact renderer_draw_text_go_subset W H clip font str pos.2 _ _ _ p hp
    | icon id r =>
      have h := renderer_draw_icon_subset _ _ _ p hp
      exact ⟨h, rect_inside_mono hclip h⟩
    | arc cc rr tt sa ea =>
      have h := renderer_draw_arc_subset _ _ _ _ _ _ p hp
      exact ⟨h, rect_inside_mono hclip h⟩
    | circle cc rr =>
      have h := renderer_draw_circle_subset _ _ _ p hp
      exact ⟨h, rect_inside_mono hclip h⟩
    | line a b t =>
      have h := renderer_draw_line_subset _ _ _ _ p hp
      exact ⟨h, rect_inside_mono hclip h⟩
    | image pos img =>
      exact renderer_draw_image_subset _ _ _ _ _ p hp
    | triangle a b cc =>
      have h := renderer_draw_triangle_subset _ _ _ _ p hp
      exact ⟨h, rect_inside_mono hclip h⟩

/-- Witness for C2 at a concrete input: a 1-pixel line command inside a
2x2 clip on a 4x4 screen, whose write (1,1) the theorem places inside
both the clip and the screen. -/
theorem C2_witness :
    inRect (mu_rect 1 1 2 2) (1 : Int) 1 ∧ inRect (mu_rect 0 0 4 4) (1 : Int) 1 :=
  (C2_clip_containment 4 4).2 (mu_rect 1 1 2 2)
    (mu_Command.line (1, 1) (2, 2) 1) (fun r h => nomatch h) (by decide)
    (1, 1) (by decide)
